import Mathlib

/-!
# node-closurebuilder: dependency extractor and modification-time cache

A shallow embedding of `lib/source.js` (the token-window dependency
extractor) and `lib/cache.js` (the cache validated by modification time),
followed by theorems about them.

Conventions of the embedding:

* a JavaScript string is a Lean `String`; one `Char` stands for one UTF-16
  code unit;
* a thrown exception is `Except.error`; a function that mutates `this`
  returns the new state next to its result;
* what lives outside the two files (the file system, `esprima`,
  `JSON.parse`, the comparison of a non-number with a number) is a parameter.
-/

namespace Closurebuilder

/-! ## JavaScript values -/

/-- Exceptions the two modules can meet. -/
inductive JsError where
  | typeError
  | ioError (path : String)
  | syntaxError
  deriving DecidableEq

/-- JSON-shaped JavaScript values. `obj` lists the own properties in
enumeration order. Numbers are the integers, which is what the cache format
stores as a timestamp. -/
inductive Json where
  | null
  | bool (b : Bool)
  | num (n : Int)
  | str (s : String)
  | arr (xs : List Json)
  | obj (kvs : List (String × Json))

mutual
/-- Decides the equality of two values. -/
def Json.decEq : (a b : Json) → Decidable (a = b)
  | .null, .null => isTrue rfl
  | .bool a, .bool b =>
    if h : a = b then isTrue (by rw [h]) else isFalse (by intro h'; cases h'; exact h rfl)
  | .num a, .num b =>
    if h : a = b then isTrue (by rw [h]) else isFalse (by intro h'; cases h'; exact h rfl)
  | .str a, .str b =>
    if h : a = b then isTrue (by rw [h]) else isFalse (by intro h'; cases h'; exact h rfl)
  | .arr a, .arr b =>
    match Json.decEqList a b with
    | isTrue h => isTrue (by rw [h])
    | isFalse h => isFalse (by intro h'; cases h'; exact h rfl)
  | .obj a, .obj b =>
    match Json.decEqObj a b with
    | isTrue h => isTrue (by rw [h])
    | isFalse h => isFalse (by intro h'; cases h'; exact h rfl)
  | .null, .bool _ | .null, .num _ | .null, .str _ | .null, .arr _ | .null, .obj _
  | .bool _, .null | .bool _, .num _ | .bool _, .str _ | .bool _, .arr _ | .bool _, .obj _
  | .num _, .null | .num _, .bool _ | .num _, .str _ | .num _, .arr _ | .num _, .obj _
  | .str _, .null | .str _, .bool _ | .str _, .num _ | .str _, .arr _ | .str _, .obj _
  | .arr _, .null | .arr _, .bool _ | .arr _, .num _ | .arr _, .str _ | .arr _, .obj _
  | .obj _, .null | .obj _, .bool _ | .obj _, .num _ | .obj _, .str _ | .obj _, .arr _ =>
    isFalse (by intro h; cases h)
/-- Decides the equality of two arrays of values. -/
def Json.decEqList : (a b : List Json) → Decidable (a = b)
  | [], [] => isTrue rfl
  | [], _ :: _ => isFalse (by intro h; cases h)
  | _ :: _, [] => isFalse (by intro h; cases h)
  | x :: xs, y :: ys =>
    match Json.decEq x y, Json.decEqList xs ys with
    | isTrue h1, isTrue h2 => isTrue (by rw [h1, h2])
    | isFalse h1, _ => isFalse (by intro h; cases h; exact h1 rfl)
    | _, isFalse h2 => isFalse (by intro h; cases h; exact h2 rfl)
/-- Decides the equality of two property lists. -/
def Json.decEqObj : (a b : List (String × Json)) → Decidable (a = b)
  | [], [] => isTrue rfl
  | [], _ :: _ => isFalse (by intro h; cases h)
  | _ :: _, [] => isFalse (by intro h; cases h)
  | (k, x) :: xs, (l, y) :: ys =>
    if hk : k = l then
      match Json.decEq x y, Json.decEqObj xs ys with
      | isTrue h1, isTrue h2 => isTrue (by rw [hk, h1, h2])
      | isFalse h1, _ => isFalse (by intro h; cases h; exact h1 rfl)
      | _, isFalse h2 => isFalse (by intro h; cases h; exact h2 rfl)
    else isFalse (by intro h; cases h; exact hk rfl)
end

instance : DecidableEq Json := Json.decEq

deriving instance DecidableEq for Except

/-- A plain object `{}` used as a map from strings: its own properties in
enumeration order. Its prototype is `Object.prototype`, whose members a read
also finds (`JsObject.read`) and whose setter a write at `__proto__` runs
(`JsObject.write`). The place an engine gives to a new integer-like key is
not modelled (a new key goes last). -/
abbrev JsObject (α : Type) := List (String × α)

/-- The own property `k` of `o`, as `hasOwnProperty` and a read of it give
it; `none` when `o` has no own property `k`. -/
def JsObject.get {α : Type} (o : JsObject α) (k : String) : Option α :=
  match o with
  | [] => none
  | (k', v) :: rest => if k' = k then some v else JsObject.get rest k

/-- The own property `k` of `o` set to `v`, the key added last when new. -/
def JsObject.set {α : Type} (o : JsObject α) (k : String) (v : α) : JsObject α :=
  match o with
  | [] => [(k, v)]
  | (k', v') :: rest => if k' = k then (k', v) :: rest else (k', v') :: JsObject.set rest k v

/-- Property removal `delete o[k]`. -/
def JsObject.delete {α : Type} (o : JsObject α) (k : String) : JsObject α :=
  match o with
  | [] => []
  | (k', v) :: rest => if k' = k then JsObject.delete rest k else (k', v) :: JsObject.delete rest k

/-- The keys a `for (k in o)` loop visits, in order: the own keys, the
members of `Object.prototype` not being enumerable. -/
def JsObject.keys {α : Type} (o : JsObject α) : List String :=
  o.map Prod.fst

/-- The names of the members of `Object.prototype`, which every plain object
inherits. -/
def objectPrototypeNames : List String :=
  ["constructor", "__defineGetter__", "__defineSetter__", "hasOwnProperty",
   "__lookupGetter__", "__lookupSetter__", "isPrototypeOf", "propertyIsEnumerable",
   "toString", "valueOf", "__proto__", "toLocaleString"]

/-- What a read `o[k]` finds on a plain object: an own property, or else the
member of `Object.prototype` of that name, which is a function or, at
`__proto__`, `Object.prototype` itself; such a member is truthy and `==` to
no number. -/
inductive Member (α : Type) where
  | own (v : α)
  | inherited (name : String)
  deriving DecidableEq

instance {α : Type} : Coe α (Member α) := ⟨Member.own⟩

/-- The read `o[k]` on a plain object; `none` is `undefined`. -/
def JsObject.read {α : Type} (o : JsObject α) (k : String) : Option (Member α) :=
  match JsObject.get o k with
  | some v => some (.own v)
  | none => if k ∈ objectPrototypeNames then some (.inherited k) else none

/-- The assignment `o[k] = v` on a plain object. At `__proto__`, unless `o`
has an own property of that name, the setter of `Object.prototype` runs and
no own property is written. The setter makes an object `v` the prototype of
`o`; the model keeps to the own properties, and what reads and `for-in`
then find through the new prototype is not modelled. -/
def JsObject.write {α : Type} (o : JsObject α) (k : String) (v : α) : JsObject α :=
  match JsObject.get o k with
  | some _ => JsObject.set o k v
  | none => if k = "__proto__" then o else JsObject.set o k v

/-- The result of `typeof v`. -/
def Json.typeof : Json → String
  | .null => "object"
  | .bool _ => "boolean"
  | .num _ => "number"
  | .str _ => "string"
  | .arr _ => "object"
  | .obj _ => "object"

/-- Truthiness of `ToBoolean(v)`, where `none` is `undefined`. -/
def truthy : Option Json → Bool
  | none => false
  | some .null => false
  | some (.bool b) => b
  | some (.num n) => decide (n ≠ 0)
  | some (.str s) => decide (s ≠ "")
  | some (.arr _) => true
  | some (.obj _) => true

/-- Property read `v.k` on a parsed JSON value, for the four names the
constructor reads, none of them a member of a prototype: a `TypeError` on
`null`, `undefined` on a primitive or an array, the own property on an
object. -/
def Json.getProp (v : Json) (k : String) : Except JsError (Option Json) :=
  match v with
  | .null => .error .typeError
  | .obj kvs => .ok (JsObject.get kvs k)
  | _ => .ok none

/-- Pairs an array with its indices, starting at `i`. -/
def indexed (i : Nat) : List Json → List (String × Json)
  | [] => []
  | x :: xs => (toString i, x) :: indexed (i + 1) xs

/-- The `(key, value)` pairs a `for (k in v)` loop with `v[k]` sees. -/
def Json.forIn : Json → List (String × Json)
  | .obj kvs => kvs
  | .arr xs => indexed 0 xs
  | _ => []

/-- A call `s.substr(start, length)`. -/
def substr (s : String) (start : Int) (length : Int) : String :=
  let size : Int := s.length
  let intStart : Int := if start < 0 then max (size + start) 0 else start
  let resultLength : Int := min (max length 0) (size - intStart)
  if resultLength ≤ 0 then ""
  else String.mk ((s.data.drop intStart.toNat).take resultLength.toNat)

/-- A call `hay.indexOf(needle)` on code-unit lists, searching from `i`. -/
def indexOfFrom (needle : List Char) : List Char → Nat → Int
  | [], i => if needle = [] then (i : Int) else -1
  | c :: cs, i =>
    if needle.isPrefixOf (c :: cs) then (i : Int) else indexOfFrom needle cs (i + 1)

/-- A call `hay.indexOf(needle)`. -/
def indexOf (hay needle : String) : Int :=
  indexOfFrom needle.data hay.data 0

/-! ## lib/source.js -/

/-- A token of `esprima.tokenize`. -/
structure Token where
  type : String
  value : String
  deriving DecidableEq

/-- An instance of `Source`. -/
structure Source where
  isModule : Bool
  provides : Json
  requires : Json
  path : String
  syntaxTree : Json
  deriving DecidableEq

/-- The constructor `new Source(path, provides, requires, isModule, syntaxTree)`;
an argument that is `undefined` is `none`. -/
def Source.new (path : String) (provides requires : Option Json) (isModule : Bool)
    (syntaxTree : Json) : Source :=
  { isModule := isModule
    provides := if truthy provides then provides.getD (.arr []) else .arr []
    requires := if truthy requires then requires.getD (.arr []) else .arr []
    path := path
    syntaxTree := syntaxTree }

/-- An array of strings as a value. -/
def strings (xs : List String) : Json :=
  .arr (xs.map Json.str)

/-- Element read `tokens[i]`; reading a property of the `undefined` an
out-of-range index gives throws a `TypeError`. -/
def tokenAt (tokens : List Token) (i : Int) : Except JsError Token :=
  if i < 0 then .error .typeError
  else match tokens.get? i.toNat with
    | some t => .ok t
    | none => .error .typeError

/-- The operator `a && b` on tests that may throw: `b` is looked at only
when `a` is true. -/
def jsAnd (a b : Except JsError Bool) : Except JsError Bool :=
  match a with
  | .ok true => b
  | .ok false => .ok false
  | .error e => .error e

/-- The comparison `s == tokens[i].type`. -/
def typeIs (tokens : List Token) (i : Int) (s : String) : Except JsError Bool :=
  match tokenAt tokens i with
  | .ok t => .ok (s == t.type)
  | .error e => .error e

/-- The comparison `s == tokens[i].value`. -/
def valueIs (tokens : List Token) (i : Int) (s : String) : Except JsError Bool :=
  match tokenAt tokens i with
  | .ok t => .ok (s == t.value)
  | .error e => .error e

/-- The test shared by both loops (lines 83-87 and 98-102): the five tokens
ending at `i` are `goog . <identifier> ( <string>`. -/
def isGoogCall (tokens : List Token) (i : Nat) : Except JsError Bool :=
  jsAnd (typeIs tokens i "String")
  (jsAnd (typeIs tokens ((i : Int) - 1) "Punctuator")
  (jsAnd (valueIs tokens ((i : Int) - 1) "(")
  (jsAnd (typeIs tokens ((i : Int) - 2) "Identifier")
  (jsAnd (typeIs tokens ((i : Int) - 3) "Punctuator")
  (jsAnd (valueIs tokens ((i : Int) - 3) ".")
  (jsAnd (typeIs tokens ((i : Int) - 4) "Identifier")
         (valueIs tokens ((i : Int) - 4) "goog")))))))

/-- The indices `for (var i = lo; i < hi; i++)` visits. -/
def forRange (lo hi : Nat) : List Nat :=
  List.range' lo (hi - lo)

/-- The first loop (lines 81-93) over the indices still to visit: `true`
when it leaves through `break`. -/
def testOnlyLoop (tokens : List Token) : List Nat → Except JsError Bool
  | [] => .ok false
  | i :: rest =>
    match jsAnd (isGoogCall tokens i) (valueIs tokens ((i : Int) - 2) "setTestOnly") with
    | .ok true => .ok true
    | .ok false => testOnlyLoop tokens rest
    | .error e => .error e

/-- The variables the second loop updates. -/
structure Declarations where
  provides : List String
  requires : List String
  isModule : Bool
  deriving DecidableEq

/-- The argument of both `push` calls:
`tokens[i].value.substr(1, tokens[i].value.length - 2)`. -/
def unquoted (tokens : List Token) (i : Nat) : Except JsError String :=
  match tokenAt tokens i with
  | .ok t => .ok (substr t.value 1 ((t.value.length : Int) - 2))
  | .error e => .error e

/-- One pass of the body of the second loop (lines 97-115). -/
def declarationStep (tokens : List Token) (i : Nat) (d : Declarations) :
    Except JsError Declarations :=
  match isGoogCall tokens i with
  | .error e => .error e
  | .ok false => .ok d
  | .ok true =>
    match valueIs tokens ((i : Int) - 2) "provide" with
    | .error e => .error e
    | .ok true =>
      match unquoted tokens i with
      | .ok s => .ok { d with provides := d.provides ++ [s] }
      | .error e => .error e
    | .ok false =>
      match valueIs tokens ((i : Int) - 2) "module" with
      | .error e => .error e
      | .ok true =>
        match unquoted tokens i with
        | .ok s => .ok { d with provides := d.provides ++ [s], isModule := true }
        | .error e => .error e
      | .ok false =>
        match valueIs tokens ((i : Int) - 2) "require" with
        | .error e => .error e
        | .ok true =>
          match unquoted tokens i with
          | .ok s => .ok { d with requires := d.requires ++ [s] }
          | .error e => .error e
        | .ok false => .ok d

/-- The second loop (lines 96-116) over the indices still to visit. -/
def declarationLoop (tokens : List Token) : List Nat → Declarations →
    Except JsError Declarations
  | [], d => .ok d
  | i :: rest, d =>
    match declarationStep tokens i d with
    | .ok d => declarationLoop tokens rest d
    | .error e => .error e

/-- Lines 78-118: both scans over the token list. -/
def scanTokens (tokens : List Token) : Except JsError Declarations :=
  match testOnlyLoop tokens (forRange 4 tokens.length) with
  | .error e => .error e
  | .ok true => .ok ⟨[], [], false⟩
  | .ok false => declarationLoop tokens (forRange 4 tokens.length) ⟨[], [], false⟩

/-! ### The comment scan -/

/-- The part `[\s\S]*?\*/` of `COMMENT_REGEX` tried on the rest of the
text: how many characters the lazy star takes before the first `*/`. -/
def lazyClose : List Char → Option Nat
  | [] => none
  | c :: cs =>
    if c = '*' ∧ cs.head? = some '/' then some 0
    else (lazyClose cs).map (fun n => n + 1)

/-- An attempt to match `COMMENT_REGEX` at the head of the text: the length
of the match. -/
def matchHere : List Char → Option Nat
  | '/' :: '*' :: cs => (lazyClose cs).map (fun n => n + 4)
  | _ => none

/-- The search for the first position, from `p` on, where the attempt
succeeds: start and end of the match. The list is the text from `p`. -/
def searchFrom : List Char → Nat → Option (Nat × Nat)
  | [], _ => none
  | c :: cs, p =>
    match matchHere (c :: cs) with
    | some n => some (p, p + n)
    | none => searchFrom cs (p + 1)

/-- A call `COMMENT_REGEX.exec(source)` with the flag `g`: the search starts
at `lastIndex`; a match moves `lastIndex` to its end, a failure resets it to
zero. The result is the matched text and the new `lastIndex`. -/
def exec (source : String) (lastIndex : Nat) : Option String × Nat :=
  if source.length < lastIndex then (none, 0)
  else
    match searchFrom (source.data.drop lastIndex) lastIndex with
    | some (b, e) => (some (String.mk ((source.data.drop b).take (e - b))), e)
    | none => (none, 0)

/-- The loop of `hasProvideGoogFlag` with a bound on the number of passes. -/
def hasProvideGoogFlagLoop (source : String) : Nat → Nat → Bool × Nat
  | 0, lastIndex => (false, lastIndex)
  | fuel + 1, lastIndex =>
    match exec source lastIndex with
    | (some m, lastIndex) =>
      if -1 < indexOf m "@provideGoog" then (true, lastIndex)
      else hasProvideGoogFlagLoop source fuel lastIndex
    | (none, lastIndex) => (false, lastIndex)

/-- The function `Source.hasProvideGoogFlag(source)`, from the `lastIndex`
the shared `COMMENT_REGEX` holds at the call to the one it holds after.
Every match is at least four characters long, so the loop makes fewer than
`source.length + 2` passes. -/
def Source.hasProvideGoogFlag (source : String) (lastIndex : Nat) : Bool × Nat :=
  hasProvideGoogFlagLoop source (source.length + 2) lastIndex

/-- The two functions of `esprima` the module calls. -/
structure Esprima where
  parse : String → Except JsError Json
  tokenize : String → Except JsError (List Token)

/-- The file system as the calls of `fs` see it: the modification time in
milliseconds of what exists at a path, and the text of what can be read. -/
structure FileSystem where
  mtime : String → Option Int
  content : String → Option String

/-- A call `fs.existsSync(path)`. -/
def FileSystem.existsSync (fs : FileSystem) (path : String) : Bool :=
  (fs.mtime path).isSome

/-- A call `+fs.statSync(path).mtime`. -/
def FileSystem.statSyncMtime (fs : FileSystem) (path : String) : Except JsError Int :=
  match fs.mtime path with
  | some t => .ok t
  | none => .error (.ioError path)

/-- A call `fs.readFileSync(path, 'utf8')`. -/
def FileSystem.readFileSync (fs : FileSystem) (path : String) : Except JsError String :=
  match fs.content path with
  | some s => .ok s
  | none => .error (.ioError path)

/-- The statement `syntaxTree.body = null` under `if (syntaxTree)`. -/
def clearBody (syntaxTree : Json) : Json :=
  match syntaxTree with
  | .obj kvs => .obj (JsObject.set kvs "body" .null)
  | v => v

/-- The function `Source.createFromFile(path, opt_saveSyntaxTree)`. Next to
the result stands the `lastIndex` of `COMMENT_REGEX` after the call. The
line `console.error(path)` of the handler writes to the console only. -/
def Source.createFromFile (esprima : Esprima) (fs : FileSystem) (lastIndex : Nat)
    (path : String) (opt_saveSyntaxTree : Bool) : Except JsError Source × Nat :=
  match fs.readFileSync path with
  | .error e => (.error e, lastIndex)
  | .ok source =>
    match (if opt_saveSyntaxTree then (esprima.parse source).map clearBody else .ok .null) with
    | .error e => (.error e, lastIndex)
    | .ok syntaxTree =>
      match esprima.tokenize source with
      | .error e => (.error e, lastIndex)
      | .ok tokens =>
        match scanTokens tokens with
        | .error e => (.error e, lastIndex)
        | .ok d =>
          let flag := Source.hasProvideGoogFlag source lastIndex
          let provides := if flag.1 then d.provides ++ ["goog"] else d.provides
          (.ok (Source.new path (some (strings provides)) (some (strings d.requires))
            d.isModule syntaxTree), flag.2)

/-! ## lib/cache.js -/

/-- An instance of `Cache`. -/
structure Cache where
  file : String
  _sourcesMap : JsObject Source
  _modifiedDates : JsObject Json
  deriving DecidableEq

/-- The assignment `o[k] = v` of a value that may be `undefined`: a property
holding `undefined` reads like an absent one. -/
def JsObject.assign (o : JsObject Json) (k : String) (v : Option Json) : JsObject Json :=
  match v with
  | some v => JsObject.write o k v
  | none => JsObject.delete o k

/-- The truthiness of the property read `v.k`. -/
def truthyProp (v : Json) (k : String) : Except JsError Bool :=
  match v.getProp k with
  | .ok x => .ok (truthy x)
  | .error e => .error e

/-- One pass of the body of the loop of the constructor (lines 26-37). -/
def Cache.loadEntry (c : Cache) (jsFile : String) (jsonSource : Json) : Except JsError Cache :=
  match jsAnd (truthyProp jsonSource "provides")
      (jsAnd (truthyProp jsonSource "requires") (truthyProp jsonSource "modifiedDates")) with
  | .error e => .error e
  | .ok false => .ok c
  | .ok true =>
    match jsonSource.getProp "provides", jsonSource.getProp "requires",
        jsonSource.getProp "isModule", jsonSource.getProp "modifiedDates" with
    | .ok provides, .ok requires, .ok isModule, .ok modifiedDates =>
      .ok { c with
        _sourcesMap :=
          JsObject.write c._sourcesMap jsFile
            (Source.new jsFile provides requires (truthy isModule) .null)
        _modifiedDates := JsObject.assign c._modifiedDates jsFile modifiedDates }
    | .error e, _, _, _ => .error e
    | _, .error e, _, _ => .error e
    | _, _, .error e, _ => .error e
    | _, _, _, .error e => .error e

/-- The loop of the constructor (lines 25-38) inside its `try`: an exception
ends the loop, the handler is empty, and what was loaded before stays. -/
def Cache.loadLoop (c : Cache) : List (String × Json) → Cache
  | [] => c
  | (jsFile, jsonSource) :: rest =>
    match Cache.loadEntry c jsFile jsonSource with
    | .ok c => Cache.loadLoop c rest
    | .error _ => c

/-- The constructor `new Cache(file)`. -/
def Cache.new (jsonParse : String → Except JsError Json) (fs : FileSystem) (file : String) :
    Cache :=
  let c : Cache := { file := file, _sourcesMap := [], _modifiedDates := [] }
  if fs.existsSync file then
    match fs.readFileSync file with
    | .error _ => c
    | .ok content =>
      match jsonParse content with
      | .error _ => c
      | .ok json => if "object" == json.typeof then Cache.loadLoop c json.forIn else c
  else c

/-- The comparison `a == t` of line 51, where `t` is a number: equality for
a number, false for `undefined` and `null`; a value of another type is first
converted by the language (`ToNumber`, floating point), and `coerced` stands
for the outcome. -/
def looseEq (coerced : Json → Int → Bool) : Option Json → Int → Bool
  | none, _ => false
  | some .null, _ => false
  | some (.num n), t => n == t
  | some v, t => coerced v t

/-- The method `removeSource(path)`. -/
def Cache.removeSource (c : Cache) (path : String) : Cache :=
  { c with
    _modifiedDates := JsObject.delete c._modifiedDates path
    _sourcesMap := JsObject.delete c._sourcesMap path }

/-- The comparison `this._modifiedDates[path] == t` of line 51 on what the
read finds: an own timestamp is compared by `looseEq`; `undefined` and an
inherited member equal no number. -/
def timestampEquals (coerced : Json → Int → Bool) : Option (Member Json) → Int → Bool
  | some (.own v), t => looseEq coerced (some v) t
  | some (.inherited _), _ => false
  | none, _ => false

/-- The method `getSource(path)`: the value returned (`none` is `null`) or the
exception thrown, and the cache afterwards. The test of line 50 holds on
whatever the read finds, a record or an inherited member, both truthy. -/
def Cache.getSource (coerced : Json → Int → Bool) (fs : FileSystem) (c : Cache)
    (path : String) : Except JsError (Option (Member Source)) × Cache :=
  match JsObject.read c._sourcesMap path with
  | some found =>
    match fs.statSyncMtime path with
    | .error e => (.error e, c)
    | .ok t =>
      if timestampEquals coerced (JsObject.read c._modifiedDates path) t then
        (.ok (some found), c)
      else (.ok none, c.removeSource path)
  | none => (.ok none, c)

/-- The method `setSource(path, source)`, `source` an instance of `Source`. -/
def Cache.setSource (c : Cache) (path : String) (source : Source) : Cache :=
  { c with _sourcesMap := JsObject.write c._sourcesMap path source }

/-- The object literal of lines 85-90 for a key the loop of `save` visits,
an own property of `_sourcesMap`. -/
def Cache.saveEntry (fs : FileSystem) (c : Cache) (jsFile : String) : Except JsError Json :=
  match JsObject.get c._sourcesMap jsFile with
  | none => .error .typeError
  | some source =>
    match fs.statSyncMtime jsFile with
    | .error e => .error e
    | .ok t =>
      .ok (.obj [("isModule", .bool source.isModule), ("modifiedDates", .num t),
        ("provides", source.provides), ("requires", source.requires)])

/-- The loop of `save` (lines 83-92) over the keys still to visit. The keys
are own keys of `_sourcesMap`, which assignments never make `__proto__`,
and `json[jsFile] = ...` writes an own property of `json`. -/
def Cache.saveLoop (fs : FileSystem) (c : Cache) :
    List String → JsObject Json → Except JsError (JsObject Json)
  | [], json => .ok json
  | jsFile :: rest, json =>
    if fs.existsSync jsFile then
      match Cache.saveEntry fs c jsFile with
      | .ok entry => Cache.saveLoop fs c rest (JsObject.set json jsFile entry)
      | .error e => .error e
    else Cache.saveLoop fs c rest json

/-- The method `save(opt_callback)`: the object `json` it hands, through
`JSON.stringify`, to `utils.writeFile` for `this.file`, and the cache
afterwards. -/
def Cache.save (fs : FileSystem) (c : Cache) : Except JsError Json × Cache :=
  match Cache.saveLoop fs c (JsObject.keys c._sourcesMap) [] with
  | .ok json => (.ok (.obj json), c)
  | .error e => (.error e, c)

/-! ## The scans as the specification words them -/

/-- Every run of five consecutive tokens, in document order. -/
def windows : List Token → List (List Token)
  | [] => []
  | a :: rest => if 4 ≤ rest.length then (a :: rest.take 4) :: windows rest else []

/-- The method name and the text of the string literal of a window of the
shape `Identifier(goog) Punctuator(.) Identifier(m) Punctuator(() String`. -/
def googCall : List Token → Option (String × String)
  | [g, dot, m, paren, lit] =>
    if g.type = "Identifier" ∧ g.value = "goog" ∧ dot.type = "Punctuator" ∧ dot.value = "." ∧
        m.type = "Identifier" ∧ paren.type = "Punctuator" ∧ paren.value = "(" ∧
        lit.type = "String" then
      some (m.value, lit.value)
    else none
  | _ => none

/-- A text with its first and its last character removed. -/
def unquote (s : String) : String :=
  String.mk (s.data.drop 1).dropLast

/-- The unquoted string of a window, when the window is a call of one of
the methods named. -/
def declared (methods : List String) (w : List Token) : Option String :=
  match googCall w with
  | some (m, text) => if m ∈ methods then some (unquote text) else none
  | none => none

/-- The unquoted strings of the windows that call one of the methods named,
in document order. -/
def declaredBy (methods : List String) (tokens : List Token) : List String :=
  (windows tokens).filterMap (declared methods)

/-- Whether a window is a call of the method named. -/
def callsMethod (method : String) (w : List Token) : Bool :=
  match googCall w with
  | some (m, _) => decide (m = method)
  | none => false

/-- Whether some window of the token list is a call of the method named. -/
def hasWindow (method : String) (tokens : List Token) : Bool :=
  (windows tokens).any (callsMethod method)

/-- The test of both loops as a function of the five tokens it reads. -/
def windowTest (a b c d e : Token) : Bool :=
  "String" == e.type && ("Punctuator" == d.type && ("(" == d.value &&
  ("Identifier" == c.type && ("Punctuator" == b.type && ("." == b.value &&
  ("Identifier" == a.type && "goog" == a.value))))))

/-! ## The loop of the constructor, entry by entry -/

/-- The property read `v.k` where it does not throw. -/
def Json.prop (v : Json) (k : String) : Option Json :=
  match v with
  | .obj kvs => JsObject.get kvs k
  | _ => none

/-- The test of lines 28-32 on a value that is not `null`. -/
def accepted (v : Json) : Bool :=
  truthy (v.prop "provides") && (truthy (v.prop "requires") && truthy (v.prop "modifiedDates"))

/-- The cache after the body of lines 33-36 for an entry. -/
def Cache.withEntry (c : Cache) (jsFile : String) (v : Json) : Cache :=
  { c with
    _sourcesMap :=
      JsObject.write c._sourcesMap jsFile
        (Source.new jsFile (v.prop "provides") (v.prop "requires")
          (truthy (v.prop "isModule")) .null)
    _modifiedDates := JsObject.assign c._modifiedDates jsFile (v.prop "modifiedDates") }

/-! ## Concrete inputs -/

/-- The tokens of the call `goog.<method>(<literal>);`. -/
def callTokens (method literal : String) : List Token :=
  [⟨"Identifier", "goog"⟩, ⟨"Punctuator", "."⟩, ⟨"Identifier", method⟩, ⟨"Punctuator", "("⟩,
   ⟨"String", literal⟩, ⟨"Punctuator", ")"⟩, ⟨"Punctuator", ";"⟩]

/-- A file with two provides of the same namespace, a module form and a
require. -/
def declText : String :=
  "goog.provide('a.b');goog.provide('a.b');goog.module('m');goog.require('c.d');"

/-- The tokens of `declText`. -/
def declTokens : List Token :=
  callTokens "provide" "'a.b'" ++ callTokens "provide" "'a.b'" ++ callTokens "module" "'m'" ++
    callTokens "require" "'c.d'"

/-- A base file marked test-only that still provides a namespace. -/
def testOnlyText : String :=
  "/** @provideGoog */goog.setTestOnly('t');goog.provide('a.b');goog.require('c.d');"

/-- The tokens of `testOnlyText`; the tokenizer drops the comment. -/
def testOnlyTokens : List Token :=
  callTokens "setTestOnly" "'t'" ++ callTokens "provide" "'a.b'" ++ callTokens "require" "'c.d'"

/-- A tokenizer and a parser that know the two example files. -/
def exampleEsprima : Esprima where
  parse := fun _ => .ok (.obj [("type", .str "Program"), ("body", .arr [])])
  tokenize := fun source =>
    if source = declText then .ok declTokens
    else if source = testOnlyText then .ok testOnlyTokens
    else .error .syntaxError

/-- A file system holding the two example files. -/
def exampleFiles : FileSystem where
  mtime := fun path => if path = "decl.js" ∨ path = "base.js" then some 1000 else none
  content := fun path =>
    if path = "decl.js" then some declText
    else if path = "base.js" then some testOnlyText
    else none

/-- A comparison of a non-number with a number that never holds. -/
def neverEqual : Json → Int → Bool :=
  fun _ _ => false

/-- The text of the cache file of the scenario of the specification. -/
def fooText : String :=
  "\x7b\"foo.js\":\x7b\"provides\":[\"A\"],\"requires\":[],\"modifiedDates\":1000,\"isModule\":false\x7d\x7d"

/-- The document `fooText` parses to. -/
def fooDoc : Json :=
  .obj [("foo.js", .obj [("provides", strings ["A"]), ("requires", strings []),
    ("modifiedDates", .num 1000), ("isModule", .bool false)])]

/-- A parser that knows `fooText`. -/
def fooParse : String → Except JsError Json :=
  fun text => if text = fooText then .ok fooDoc else .error .syntaxError

/-- A file system with the cache file of the scenario and `foo.js` last
modified at `t`. -/
def fooFiles (t : Int) : FileSystem where
  mtime := fun path => if path = "foo.js" then some t else if path = "cache.json" then some 7 else none
  content := fun path => if path = "cache.json" then some fooText else none

/-- The record the scenario caches for `foo.js`. -/
def fooRecord : Source :=
  ⟨false, strings ["A"], strings [], "foo.js", .null⟩

/-- The cache of the scenario after construction. -/
def fooCache : Cache :=
  ⟨"cache.json", [("foo.js", fooRecord)], [("foo.js", .num 1000)]⟩

/-- A record some later scan could give for `foo.js`. -/
def fooRecord2 : Source :=
  ⟨true, strings ["B"], strings ["A"], "foo.js", .null⟩

/-- A file system in which `foo.js` is gone. -/
def noFiles : FileSystem where
  mtime := fun _ => none
  content := fun _ => none

/-- A record as a scan of `epoch.js` gives it. -/
def epochRecord : Source :=
  ⟨false, strings ["A"], strings ["B"], "epoch.js", .null⟩

/-- A cache into which `setSource` has put `epochRecord`. -/
def epochCache : Cache :=
  Cache.setSource ⟨"cache.json", [], []⟩ "epoch.js" epochRecord

/-- The object `save` builds from `epochCache` when `epoch.js` was last
modified at `t`. -/
def epochDoc (t : Int) : Json :=
  .obj [("epoch.js", .obj [("isModule", .bool false), ("modifiedDates", .num t),
    ("provides", strings ["A"]), ("requires", strings ["B"])])]

/-- The text `JSON.stringify` gives for `epochDoc 0`. -/
def epochText : String :=
  "\x7b\"epoch.js\":\x7b\"isModule\":false,\"modifiedDates\":0,\"provides\":[\"A\"],\"requires\":[\"B\"]\x7d\x7d"

/-- The text `JSON.stringify` gives for `epochDoc 1000`. -/
def laterText : String :=
  "\x7b\"epoch.js\":\x7b\"isModule\":false,\"modifiedDates\":1000,\"provides\":[\"A\"],\"requires\":[\"B\"]\x7d\x7d"

/-- A parser that knows `epochText` and `laterText`. -/
def epochParse : String → Except JsError Json :=
  fun text =>
    if text = epochText then .ok (epochDoc 0)
    else if text = laterText then .ok (epochDoc 1000)
    else .error .syntaxError

/-- A file system where `epoch.js` was last modified at `t` and the cache
file holds `text`. -/
def epochFiles (t : Int) (text : Option String) : FileSystem where
  mtime := fun path =>
    if path = "epoch.js" then some t
    else if path = "cache.json" then text.map (fun _ => 7)
    else none
  content := fun path => if path = "cache.json" then text else none

/-- A cache document whose only entry has the timestamp `t`. -/
def stampDoc (t : Int) : Json :=
  .obj [("a.js", .obj [("provides", strings ["A"]), ("requires", strings []),
    ("modifiedDates", .num t)])]

/-- A well-formed entry for `b.js`. -/
def goodEntry : Json :=
  .obj [("provides", strings ["B"]), ("requires", strings []), ("modifiedDates", .num 1000),
    ("isModule", .bool false)]

/-- The record the constructor makes of `goodEntry`. -/
def goodRecord : Source :=
  ⟨false, strings ["B"], strings [], "b.js", .null⟩

/-- A file system that holds a cache file, whose text the parser is given. -/
def cacheFileOnly : FileSystem where
  mtime := fun path => if path = "cache.json" then some 7 else none
  content := fun path => if path = "cache.json" then some "" else none

/-- A file system whose only file is named `toString`. -/
def toStringFiles : FileSystem where
  mtime := fun path => if path = "toString" then some 1000 else none
  content := fun path => if path = "toString" then some "" else none

/-! ## Sequences of calls on a cache -/

/-- A call of one of the four methods of a cache, together with the file
system the call sees. -/
inductive Call where
  | getSource (fs : FileSystem) (path : String)
  | setSource (path : String) (source : Source)
  | removeSource (path : String)
  | save (fs : FileSystem)

/-- The cache after one call, whether the call returns or throws. -/
def Cache.call (coerced : Json → Int → Bool) (c : Cache) : Call → Cache
  | .getSource fs path => (c.getSource coerced fs path).2
  | .setSource path source => c.setSource path source
  | .removeSource path => c.removeSource path
  | .save fs => (c.save fs).2

/-- The cache after a sequence of calls. -/
def Cache.calls (coerced : Json → Int → Bool) (c : Cache) : List Call → Cache
  | [] => c
  | x :: rest => Cache.calls coerced (c.call coerced x) rest

/-! ## More concrete inputs -/

/-- Whether some window of the token list has the shape
`goog . <identifier> ( <string literal>`. -/
def hasGoogCall (tokens : List Token) : Bool :=
  (windows tokens).any (fun w => (googCall w).isSome)

/-- A base file: the flag in a comment and no call of a method of `goog`. -/
def baseText : String :=
  "/** @provideGoog */var goog = goog || \x7b\x7d;"

/-- The tokens of `baseText`. -/
def baseTokens : List Token :=
  [⟨"Keyword", "var"⟩, ⟨"Identifier", "goog"⟩, ⟨"Punctuator", "="⟩, ⟨"Identifier", "goog"⟩,
   ⟨"Punctuator", "||"⟩, ⟨"Punctuator", "\x7b"⟩, ⟨"Punctuator", "\x7d"⟩, ⟨"Punctuator", ";"⟩]

/-- A file with no comment and no call of a method of `goog`. -/
def plainText : String :=
  "var x = 1;"

/-- The tokens of `plainText`. -/
def plainTokens : List Token :=
  [⟨"Keyword", "var"⟩, ⟨"Identifier", "x"⟩, ⟨"Punctuator", "="⟩, ⟨"Numeric", "1"⟩,
   ⟨"Punctuator", ";"⟩]

/-- A file with a module form followed by a provide. -/
def moduleText : String :=
  "goog.module('m');goog.provide('a.b');"

/-- The tokens of `moduleText`. -/
def moduleTokens : List Token :=
  callTokens "module" "'m'" ++ callTokens "provide" "'a.b'"

/-- A file with a module form and a require. -/
def singleText : String :=
  "goog.module('m');goog.require('a.b');"

/-- The tokens of `singleText`. -/
def singleTokens : List Token :=
  callTokens "module" "'m'" ++ callTokens "require" "'a.b'"

/-- A tokenizer and a parser that know the four files above. -/
def sampleEsprima : Esprima where
  parse := fun _ => .ok (.obj [("type", .str "Program"), ("body", .arr [])])
  tokenize := fun source =>
    if source = baseText then .ok baseTokens
    else if source = plainText then .ok plainTokens
    else if source = moduleText then .ok moduleTokens
    else if source = singleText then .ok singleTokens
    else .error .syntaxError

/-- A file system holding the four files above. -/
def sampleFiles : FileSystem where
  mtime := fun path =>
    if path = "closure/base.js" ∨ path = "plain.js" ∨ path = "mod.js" ∨ path = "single.js" then some 1000
    else none
  content := fun path =>
    if path = "closure/base.js" then some baseText
    else if path = "plain.js" then some plainText
    else if path = "mod.js" then some moduleText
    else if path = "single.js" then some singleText
    else none

/-! ## The comment scan as the specification words it -/

/-- The block-comment regions of a text, left to right: a region opens at a
`/*` and runs up to the first `*/` that follows the opening; the scan goes
on after the region; an opening with no `*/` after it ends the scan. The
first argument is the region open so far, if any. -/
def commentRegions : Option (List Char) → List Char → List (List Char)
  | _, [] => []
  | none, [_] => []
  | some _, [_] => []
  | none, c :: d :: cs =>
    if c = '/' ∧ d = '*' then commentRegions (some ['/', '*']) cs
    else commentRegions none (d :: cs)
  | some acc, c :: d :: cs =>
    if c = '*' ∧ d = '/' then (acc ++ ['*', '/']) :: commentRegions none cs
    else commentRegions (some (acc ++ [c])) (d :: cs)

/-- The literal the comment scan looks for. -/
def provideGoogFlag : List Char :=
  "@provideGoog".data

/-! ## Lemmas on the token scans -/

theorem substr_unquote (v : String) : substr v 1 ((v.length : Int) - 2) = unquote v := by
  rcases v with ⟨cs⟩
  unfold substr unquote
  simp only [String.length]
  cases cs with
  | nil => simp
  | cons c cs =>
    have h1 : ¬ ((1 : Int) < 0) := by omega
    simp only [List.length_cons, List.drop_succ_cons, List.drop_zero, h1, if_false]
    have h3 : min (max (((cs.length + 1 : Nat) : Int) - 2) 0)
        (((cs.length + 1 : Nat) : Int) - 1) = ((cs.length - 1 : Nat) : Int) := by
      omega
    rw [h3]
    by_cases h : cs.length ≤ 1
    · have h2 : ((cs.length - 1 : Nat) : Int) ≤ 0 := by omega
      rw [if_pos h2]
      rw [List.dropLast_eq_take]
      have h4 : cs.length - 1 = 0 := by omega
      rw [h4, List.take_zero]
    · have h2 : ¬ (((cs.length - 1 : Nat) : Int) ≤ 0) := by omega
      rw [if_neg h2]
      congr 1
      show List.take (cs.length - 1) (List.drop 1 (c :: cs)) = cs.dropLast
      rw [List.drop_succ_cons, List.drop_zero, List.dropLast_eq_take]

theorem tokenAt_drop (tokens suffix : List Token) (k m : Nat) (j : Int) (t : Token)
    (hdrop : tokens.drop k = suffix) (hget : suffix.get? m = some t)
    (hj : j = ((k + m : Nat) : Int)) : tokenAt tokens j = .ok t := by
  subst hj
  unfold tokenAt
  have h1 : ¬ (((k + m : Nat) : Int) < 0) := by omega
  rw [if_neg h1, Int.toNat_ofNat]
  have h2 : tokens.get? (k + m) = some t := by
    rw [← hget, ← hdrop, List.get?_eq_getElem?, List.get?_eq_getElem?, List.getElem?_drop]
  rw [h2]

theorem isGoogCall_drop (tokens rest : List Token) (k : Nat) (a b c d e : Token)
    (hdrop : tokens.drop k = a :: b :: c :: d :: e :: rest) :
    isGoogCall tokens (k + 4) = .ok (windowTest a b c d e) := by
  have h0 := tokenAt_drop tokens _ k 0 (((k + 4 : Nat) : Int) - 4) a hdrop rfl (by omega)
  have h1 := tokenAt_drop tokens _ k 1 (((k + 4 : Nat) : Int) - 3) b hdrop rfl (by omega)
  have h2 := tokenAt_drop tokens _ k 2 (((k + 4 : Nat) : Int) - 2) c hdrop rfl (by omega)
  have h3 := tokenAt_drop tokens _ k 3 (((k + 4 : Nat) : Int) - 1) d hdrop rfl (by omega)
  have h4 := tokenAt_drop tokens _ k 4 ((k + 4 : Nat) : Int) e hdrop rfl (by omega)
  unfold isGoogCall typeIs valueIs windowTest
  rw [h0, h1, h2, h3, h4]
  simp only [jsAnd]
  cases ("String" == e.type) <;> cases ("Punctuator" == d.type) <;> cases ("(" == d.value) <;>
    cases ("Identifier" == c.type) <;> cases ("Punctuator" == b.type) <;>
    cases ("." == b.value) <;> cases ("Identifier" == a.type) <;> rfl

theorem windowTest_iff (a b c d e : Token) :
    windowTest a b c d e = true ↔
      (a.type = "Identifier" ∧ a.value = "goog" ∧ b.type = "Punctuator" ∧ b.value = "." ∧
        c.type = "Identifier" ∧ d.type = "Punctuator" ∧ d.value = "(" ∧ e.type = "String") := by
  unfold windowTest
  simp only [Bool.and_eq_true, beq_iff_eq]
  constructor
  · rintro ⟨h1, h2, h3, h4, h5, h6, h7, h8⟩
    exact ⟨h7.symm, h8.symm, h5.symm, h6.symm, h4.symm, h2.symm, h3.symm, h1.symm⟩
  · rintro ⟨h1, h2, h3, h4, h5, h6, h7, h8⟩
    exact ⟨h8.symm, h6.symm, h7.symm, h5.symm, h3.symm, h4.symm, h1.symm, h2.symm⟩

theorem windowTest_googCall (a b c d e : Token) :
    googCall [a, b, c, d, e] = if windowTest a b c d e then some (c.value, e.value) else none := by
  show (if _ then some (c.value, e.value) else none) = _
  by_cases h : windowTest a b c d e = true
  · rw [if_pos h, if_pos ((windowTest_iff a b c d e).mp h)]
  · rw [if_neg h, if_neg (fun h' => h ((windowTest_iff a b c d e).mpr h'))]

theorem declarationStep_drop (tokens rest : List Token) (k : Nat) (a b c d e : Token)
    (hdrop : tokens.drop k = a :: b :: c :: d :: e :: rest) (decl : Declarations) :
    declarationStep tokens (k + 4) decl = .ok
      ⟨decl.provides ++ (declared ["provide", "module"] [a, b, c, d, e]).toList,
       decl.requires ++ (declared ["require"] [a, b, c, d, e]).toList,
       decl.isModule || callsMethod "module" [a, b, c, d, e]⟩ := by
  have h2 := tokenAt_drop tokens _ k 2 (((k + 4 : Nat) : Int) - 2) c hdrop rfl (by omega)
  have h4 := tokenAt_drop tokens _ k 4 ((k + 4 : Nat) : Int) e hdrop rfl (by omega)
  unfold declarationStep
  rw [isGoogCall_drop tokens rest k a b c d e hdrop]
  unfold declared callsMethod
  rw [windowTest_googCall]
  cases hw : windowTest a b c d e
  · simp
  · simp only [valueIs, unquoted, h2, h4, substr_unquote, if_true]
    cases hpb : ("provide" == c.value)
    · cases hmb : ("module" == c.value)
      · cases hrb : ("require" == c.value)
        · have hp : ¬ c.value = "provide" := fun h => by simp [h] at hpb
          have hm : ¬ c.value = "module" := fun h => by simp [h] at hmb
          have hr : ¬ c.value = "require" := fun h => by simp [h] at hrb
          simp [hp, hm, hr]
        · have hr : c.value = "require" := (eq_of_beq hrb).symm
          simp [hr]
      · have hm : c.value = "module" := (eq_of_beq hmb).symm
        simp [hm]
    · have hp : c.value = "provide" := (eq_of_beq hpb).symm
      simp [hp]

theorem four_le_length {α : Type} (rest : List α) (h : 4 ≤ rest.length) :
    ∃ b c d e tail, rest = b :: c :: d :: e :: tail := by
  match rest, h with
  | b :: c :: d :: e :: tail, _ => exact ⟨b, c, d, e, tail, rfl⟩

theorem drop_succ_of_drop {α : Type} (l : List α) (k : Nat) (a : α) (rest : List α)
    (h : l.drop k = a :: rest) : l.drop (k + 1) = rest := by
  have h1 : l.drop (k + 1) = (l.drop k).drop 1 := by
    rw [List.drop_drop, Nat.add_comm]
  rw [h1, h]
  rfl

theorem declarationLoop_drop (tokens : List Token) :
    ∀ (suffix : List Token) (k : Nat) (decl : Declarations), tokens.drop k = suffix →
      declarationLoop tokens (List.range' (k + 4) (suffix.length - 4)) decl = .ok
        ⟨decl.provides ++ (windows suffix).filterMap (declared ["provide", "module"]),
         decl.requires ++ (windows suffix).filterMap (declared ["require"]),
         decl.isModule || (windows suffix).any (callsMethod "module")⟩ := by
  intro suffix
  induction suffix with
  | nil =>
    intro k decl _
    simp [declarationLoop, windows]
  | cons a rest ih =>
    intro k decl hdrop
    by_cases h4 : 4 ≤ rest.length
    · obtain ⟨b, c, d, e, tail, hrest⟩ := four_le_length rest h4
      have hlen : (a :: rest).length - 4 = (rest.length - 4) + 1 := by
        simp only [List.length_cons]; omega
      have hwin : windows (a :: rest) = [a, b, c, d, e] :: windows rest := by
        rw [windows, if_pos h4, hrest]
        rfl
      rw [hlen, List.range'_succ, declarationLoop,
        declarationStep_drop tokens tail k a b c d e (by rw [hdrop, hrest])]
      simp only []
      rw [ih (k + 1) _ (drop_succ_of_drop tokens k a rest hdrop), hwin]
      cases h1 : declared ["provide", "module"] [a, b, c, d, e] <;>
        cases h2 : declared ["require"] [a, b, c, d, e] <;>
        simp [List.filterMap_cons, h1, h2, Bool.or_assoc]
    · have hlen : (a :: rest).length - 4 = 0 := by
        simp only [List.length_cons]; omega
      rw [hlen, windows, if_neg h4]
      simp [declarationLoop]

theorem testOnlyLoop_drop (tokens : List Token) :
    ∀ (suffix : List Token) (k : Nat), tokens.drop k = suffix →
      testOnlyLoop tokens (List.range' (k + 4) (suffix.length - 4)) =
        .ok ((windows suffix).any (callsMethod "setTestOnly")) := by
  intro suffix
  induction suffix with
  | nil =>
    intro k _
    simp [testOnlyLoop, windows]
  | cons a rest ih =>
    intro k hdrop
    by_cases h4 : 4 ≤ rest.length
    · obtain ⟨b, c, d, e, tail, hrest⟩ := four_le_length rest h4
      have hlen : (a :: rest).length - 4 = (rest.length - 4) + 1 := by
        simp only [List.length_cons]; omega
      have hwin : windows (a :: rest) = [a, b, c, d, e] :: windows rest := by
        rw [windows, if_pos h4, hrest]
        rfl
      have hd : tokens.drop k = a :: b :: c :: d :: e :: tail := by rw [hdrop, hrest]
      have h2 := tokenAt_drop tokens _ k 2 (((k + 4 : Nat) : Int) - 2) c hd rfl (by omega)
      rw [hlen, List.range'_succ, testOnlyLoop, isGoogCall_drop tokens tail k a b c d e hd,
        ih (k + 1) (drop_succ_of_drop tokens k a rest hdrop), hwin, List.any_cons]
      unfold callsMethod
      rw [windowTest_googCall]
      simp only [valueIs, h2]
      cases hw : windowTest a b c d e
      · simp [jsAnd]
      · cases hs : ("setTestOnly" == c.value)
        · have hne : ¬ c.value = "setTestOnly" := fun h => by simp [h] at hs
          simp [jsAnd, hs, hne]
        · have he : c.value = "setTestOnly" := (eq_of_beq hs).symm
          simp [jsAnd, hs, he]
    · have hlen : (a :: rest).length - 4 = 0 := by
        simp only [List.length_cons]; omega
      rw [hlen, windows, if_neg h4]
      simp [testOnlyLoop]

/-- Both scans against the windows of the token list: the scans never throw;
a test-only list leaves the three variables untouched, any other list gives
the declarations of its windows in document order. -/
theorem scanTokens_eq (tokens : List Token) :
    scanTokens tokens = .ok
      (if hasWindow "setTestOnly" tokens then ⟨[], [], false⟩
       else ⟨declaredBy ["provide", "module"] tokens, declaredBy ["require"] tokens,
             hasWindow "module" tokens⟩) := by
  unfold scanTokens forRange
  have h1 := testOnlyLoop_drop tokens tokens 0 rfl
  have h2 := declarationLoop_drop tokens tokens 0 ⟨[], [], false⟩ rfl
  simp only [Nat.zero_add] at h1 h2
  rw [h1]
  unfold hasWindow declaredBy
  cases (windows tokens).any (callsMethod "setTestOnly")
  · simp only [h2]
    simp
  · simp

theorem Source_new_strings (path : String) (p r : List String) (m : Bool) (t : Json) :
    Source.new path (some (strings p)) (some (strings r)) m t = ⟨m, strings p, strings r, path, t⟩ := by
  simp [Source.new, strings, truthy]

theorem createFromFile_eq (esprima : Esprima) (fs : FileSystem) (lastIndex : Nat)
    (path : String) (opt_saveSyntaxTree : Bool) (source : String) (tokens : List Token)
    (hread : fs.content path = some source)
    (hparse : opt_saveSyntaxTree = true → ∃ tree, esprima.parse source = .ok tree)
    (htok : esprima.tokenize source = .ok tokens) :
    ∃ tree, Source.createFromFile esprima fs lastIndex path opt_saveSyntaxTree =
      (.ok ⟨if hasWindow "setTestOnly" tokens then false else hasWindow "module" tokens,
            strings ((if hasWindow "setTestOnly" tokens then []
                else declaredBy ["provide", "module"] tokens) ++
              if (Source.hasProvideGoogFlag source lastIndex).1 then ["goog"] else []),
            strings (if hasWindow "setTestOnly" tokens then []
                else declaredBy ["require"] tokens),
            path, tree⟩,
       (Source.hasProvideGoogFlag source lastIndex).2) := by
  have hr : fs.readFileSync path = .ok source := by simp [FileSystem.readFileSync, hread]
  have hp : ∃ tree, (if opt_saveSyntaxTree then (esprima.parse source).map clearBody
      else (.ok .null : Except JsError Json)) = .ok tree := by
    cases opt_saveSyntaxTree with
    | false => exact ⟨.null, rfl⟩
    | true =>
      obtain ⟨tree, ht⟩ := hparse rfl
      exact ⟨clearBody tree, by simp [ht, Except.map]⟩
  obtain ⟨tree, ht⟩ := hp
  refine ⟨tree, ?_⟩
  unfold Source.createFromFile
  rw [hr]
  simp only [ht, htok, scanTokens_eq, Source_new_strings]
  cases hasWindow "setTestOnly" tokens <;>
    cases (Source.hasProvideGoogFlag source lastIndex).1 <;> simp

/-! ## The extractor -/

/-- C1: when no window of the token list is a `goog.setTestOnly(<string>)`
call, the declaration scan of `Source.createFromFile` does not throw and
leaves in `provides` the unquoted strings of the windows
`goog . provide|module ( <string>` and in `requires` those of the windows
`goog . require ( <string>`, in document order and with repetitions; the
record returned holds these lists, `provides` followed by `goog` when the
comment scan finds the flag. -/
theorem createFromFile_declaration_scan (esprima : Esprima) (fs : FileSystem)
    (lastIndex : Nat) (path : String) (opt_saveSyntaxTree : Bool) (source : String)
    (tokens : List Token)
    (hread : fs.content path = some source)
    (hparse : opt_saveSyntaxTree = true → ∃ tree, esprima.parse source = .ok tree)
    (htok : esprima.tokenize source = .ok tokens)
    (hnot : hasWindow "setTestOnly" tokens = false) :
    (∃ d, scanTokens tokens = .ok d ∧
      d.provides = declaredBy ["provide", "module"] tokens ∧
      d.requires = declaredBy ["require"] tokens) ∧
    ∃ src, (Source.createFromFile esprima fs lastIndex path opt_saveSyntaxTree).1 = .ok src ∧
      src.provides = strings (declaredBy ["provide", "module"] tokens ++
        if (Source.hasProvideGoogFlag source lastIndex).1 then ["goog"] else []) ∧
      src.requires = strings (declaredBy ["require"] tokens) := by
  constructor
  · refine ⟨_, scanTokens_eq tokens, ?_, ?_⟩ <;> simp [hnot]
  · obtain ⟨tree, h⟩ :=
      createFromFile_eq esprima fs lastIndex path opt_saveSyntaxTree source tokens hread hparse htok
    rw [h]
    refine ⟨_, rfl, ?_, ?_⟩ <;> simp [hnot]

/-- C1, at a file with a repeated provide, a module form and a require. -/
theorem createFromFile_declaration_scan_witness :
    (∃ d, scanTokens declTokens = .ok d ∧ d.provides = ["a.b", "a.b", "m"] ∧
      d.requires = ["c.d"]) ∧
    ∃ src, (Source.createFromFile exampleEsprima exampleFiles 0 "decl.js" true).1 = .ok src ∧
      src.provides = strings (["a.b", "a.b", "m"] ++ []) ∧ src.requires = strings ["c.d"] :=
  createFromFile_declaration_scan exampleEsprima exampleFiles 0 "decl.js" true declText
    declTokens (by decide) (fun _ => ⟨_, rfl⟩) (by decide) (by decide)

/-- C2 as stated fails: a file marked test-only whose text holds the flag
`@provideGoog` in a comment gets a record with `provides = ["goog"]`. -/
theorem testOnly_provides_counterexample :
    exampleFiles.content "base.js" = some testOnlyText ∧
    exampleEsprima.tokenize testOnlyText = .ok testOnlyTokens ∧
    hasWindow "setTestOnly" testOnlyTokens = true ∧
    (Source.createFromFile exampleEsprima exampleFiles 0 "base.js" false).1 =
      .ok ⟨false, strings ["goog"], strings [], "base.js", .null⟩ ∧
    strings ["goog"] ≠ strings [] := by
  decide

/-- C2, amended: when some window of the token list is a
`goog.setTestOnly(<string>)` call, `Source.createFromFile` returns a record
with empty `requires`, `isModule` false, and `provides` empty but for the
`goog` the comment scan adds when it finds the flag, whatever
`goog.provide`, `goog.module` and `goog.require` windows there are. -/
theorem createFromFile_testOnly (esprima : Esprima) (fs : FileSystem)
    (lastIndex : Nat) (path : String) (opt_saveSyntaxTree : Bool) (source : String)
    (tokens : List Token)
    (hread : fs.content path = some source)
    (hparse : opt_saveSyntaxTree = true → ∃ tree, esprima.parse source = .ok tree)
    (htok : esprima.tokenize source = .ok tokens)
    (htest : hasWindow "setTestOnly" tokens = true) :
    ∃ src, (Source.createFromFile esprima fs lastIndex path opt_saveSyntaxTree).1 = .ok src ∧
      src.provides =
        strings (if (Source.hasProvideGoogFlag source lastIndex).1 then ["goog"] else []) ∧
      src.requires = strings [] ∧ src.isModule = false := by
  obtain ⟨tree, h⟩ :=
    createFromFile_eq esprima fs lastIndex path opt_saveSyntaxTree source tokens hread hparse htok
  rw [h]
  refine ⟨_, rfl, ?_, ?_, ?_⟩ <;> simp [htest]

/-- C2, amended, at the test-only base file. -/
theorem createFromFile_testOnly_witness :
    ∃ src, (Source.createFromFile exampleEsprima exampleFiles 0 "base.js" true).1 = .ok src ∧
      src.provides = strings ["goog"] ∧ src.requires = strings [] ∧ src.isModule = false :=
  createFromFile_testOnly exampleEsprima exampleFiles 0 "base.js" true testOnlyText
    testOnlyTokens (by decide) (fun _ => ⟨_, rfl⟩) (by decide) (by decide)

/-! ## Lemmas on objects used as maps -/

theorem JsObject.get_set_eq {α : Type} (o : JsObject α) (k : String) (v : α) :
    JsObject.get (JsObject.set o k v) k = some v := by
  induction o with
  | nil => simp [JsObject.set, JsObject.get]
  | cons kv rest ih =>
    obtain ⟨k', v'⟩ := kv
    by_cases h : k' = k
    · simp [JsObject.set, JsObject.get, h]
    · simp [JsObject.set, JsObject.get, h, ih]

theorem JsObject.get_set_ne {α : Type} (o : JsObject α) (k q : String) (v : α) (hq : q ≠ k) :
    JsObject.get (JsObject.set o k v) q = JsObject.get o q := by
  have hkq : ¬ k = q := fun h => hq h.symm
  induction o with
  | nil => simp [JsObject.set, JsObject.get, hkq]
  | cons kv rest ih =>
    obtain ⟨k', v'⟩ := kv
    by_cases h : k' = k
    · subst h
      simp [JsObject.set, JsObject.get, hkq]
    · by_cases h2 : k' = q
      · subst h2
        simp [JsObject.set, JsObject.get, h]
      · simp [JsObject.set, JsObject.get, h, h2, ih]

theorem JsObject.get_write_eq {α : Type} (o : JsObject α) (k : String) (v : α)
    (hk : k ≠ "__proto__") : JsObject.get (JsObject.write o k v) k = some v := by
  unfold JsObject.write
  cases JsObject.get o k with
  | none => simp only [if_neg hk]; exact JsObject.get_set_eq o k v
  | some w => exact JsObject.get_set_eq o k v

theorem JsObject.get_write_ne {α : Type} (o : JsObject α) (k q : String) (v : α)
    (hq : q ≠ k) : JsObject.get (JsObject.write o k v) q = JsObject.get o q := by
  unfold JsObject.write
  cases JsObject.get o k with
  | none =>
    dsimp only
    split_ifs
    · rfl
    · exact JsObject.get_set_ne o k q v hq
  | some w => exact JsObject.get_set_ne o k q v hq

theorem JsObject.get_write_cases {α : Type} (o : JsObject α) (k : String) (v : α) :
    JsObject.get (JsObject.write o k v) k = some v ∨
      (k = "__proto__" ∧ JsObject.get o k = none ∧ JsObject.write o k v = o) := by
  unfold JsObject.write
  cases h : JsObject.get o k with
  | none =>
    dsimp only
    split_ifs with hk
    · exact Or.inr ⟨hk, rfl, rfl⟩
    · exact Or.inl (JsObject.get_set_eq o k v)
  | some w => exact Or.inl (JsObject.get_set_eq o k v)

theorem JsObject.get_delete_eq {α : Type} (o : JsObject α) (k : String) :
    JsObject.get (JsObject.delete o k) k = none := by
  induction o with
  | nil => simp [JsObject.delete, JsObject.get]
  | cons kv rest ih =>
    obtain ⟨k', v'⟩ := kv
    by_cases h : k' = k
    · simp [JsObject.delete, h, ih]
    · simp [JsObject.delete, h, ih, JsObject.get]

theorem JsObject.get_delete_ne {α : Type} (o : JsObject α) (k q : String) (hq : q ≠ k) :
    JsObject.get (JsObject.delete o k) q = JsObject.get o q := by
  have hkq : ¬ k = q := fun h => hq h.symm
  induction o with
  | nil => simp [JsObject.delete, JsObject.get]
  | cons kv rest ih =>
    obtain ⟨k', v'⟩ := kv
    by_cases h : k' = k
    · subst h
      simp [JsObject.delete, JsObject.get, hkq, ih]
    · by_cases h2 : k' = q
      · subst h2
        simp [JsObject.delete, JsObject.get, h]
      · simp [JsObject.delete, JsObject.get, h, h2, ih]

theorem JsObject.get_of_mem_keys {α : Type} (o : JsObject α) (k : String)
    (h : k ∈ JsObject.keys o) : ∃ v, JsObject.get o k = some v := by
  induction o with
  | nil => simp [JsObject.keys] at h
  | cons kv rest ih =>
    obtain ⟨k', v'⟩ := kv
    by_cases hk : k' = k
    · exact ⟨v', by simp [JsObject.get, hk]⟩
    · have h' : k ∈ JsObject.keys rest := by
        simp only [JsObject.keys, List.map_cons, List.mem_cons] at h
        rcases h with h | h
        · exact absurd h.symm hk
        · exact h
      obtain ⟨v, hv⟩ := ih h'
      exact ⟨v, by simp [JsObject.get, hk, hv]⟩

theorem JsObject.mem_keys_of_get {α : Type} (o : JsObject α) (k : String) (v : α)
    (h : JsObject.get o k = some v) : k ∈ JsObject.keys o := by
  induction o with
  | nil => simp [JsObject.get] at h
  | cons kv rest ih =>
    obtain ⟨k', v'⟩ := kv
    by_cases hk : k' = k
    · simp [JsObject.keys, hk]
    · simp only [JsObject.get, hk, if_false] at h
      have := ih h
      simp only [JsObject.keys, List.map_cons, List.mem_cons]
      exact Or.inr this


theorem saveLoop_spec (fs : FileSystem) (c : Cache) :
    ∀ (ks : List String) (acc : JsObject Json),
      (∀ k ∈ ks, ∃ s, JsObject.get c._sourcesMap k = some s) →
      ∃ json, Cache.saveLoop fs c ks acc = .ok json ∧
        ∀ p, JsObject.get json p =
          if p ∈ ks then
            match JsObject.get c._sourcesMap p, fs.mtime p with
            | some s, some t =>
              some (.obj [("isModule", .bool s.isModule), ("modifiedDates", .num t),
                ("provides", s.provides), ("requires", s.requires)])
            | _, _ => JsObject.get acc p
          else JsObject.get acc p := by
  intro ks
  induction ks with
  | nil =>
    intro acc _
    exact ⟨acc, rfl, fun p => by simp⟩
  | cons k rest ih =>
    intro acc hks
    obtain ⟨s, hs⟩ := hks k (List.mem_cons_self k rest)
    have hrest : ∀ k' ∈ rest, ∃ s, JsObject.get c._sourcesMap k' = some s :=
      fun k' hk' => hks k' (List.mem_cons_of_mem k hk')
    cases ht : fs.mtime k with
    | none =>
      obtain ⟨json, hjson, hget⟩ := ih acc hrest
      refine ⟨json, ?_, ?_⟩
      · simp [Cache.saveLoop, FileSystem.existsSync, ht, hjson]
      · intro p
        rw [hget p]
        by_cases hpk : p = k
        · subst hpk
          simp [hs, ht]
        · simp [hpk]
    | some t =>
      obtain ⟨json, hjson, hget⟩ :=
        ih (JsObject.set acc k (.obj [("isModule", .bool s.isModule), ("modifiedDates", .num t),
          ("provides", s.provides), ("requires", s.requires)])) hrest
      refine ⟨json, ?_, ?_⟩
      · simp [Cache.saveLoop, FileSystem.existsSync, ht, Cache.saveEntry, hs,
          FileSystem.statSyncMtime, hjson]
      · intro p
        rw [hget p]
        by_cases hpk : p = k
        · subst hpk
          simp [hs, ht, JsObject.get_set_eq]
        · simp [hpk, JsObject.get_set_ne _ _ _ _ hpk]

/-- What `save` emits and leaves: the object it builds holds, for each path
with a cached record whose file exists, the literal of lines 85-90 with the
modification time read at the call, and nothing for any other path; the
cache is as before. -/
theorem save_eq (fs : FileSystem) (c : Cache) :
    ∃ json, Cache.save fs c = (.ok (.obj json), c) ∧
      ∀ p, JsObject.get json p =
        match JsObject.get c._sourcesMap p, fs.mtime p with
        | some s, some t =>
          some (.obj [("isModule", .bool s.isModule), ("modifiedDates", .num t),
            ("provides", s.provides), ("requires", s.requires)])
        | _, _ => none := by
  obtain ⟨json, hjson, hget⟩ := saveLoop_spec fs c (JsObject.keys c._sourcesMap) []
    (fun k hk => JsObject.get_of_mem_keys _ k hk)
  refine ⟨json, by simp [Cache.save, hjson], ?_⟩
  intro p
  rw [hget p]
  by_cases hp : p ∈ JsObject.keys c._sourcesMap
  · rw [if_pos hp]
    cases JsObject.get c._sourcesMap p <;> cases fs.mtime p <;> simp [JsObject.get]
  · rw [if_neg hp]
    cases hs : JsObject.get c._sourcesMap p with
    | none => simp [JsObject.get]
    | some s => exact absurd (JsObject.mem_keys_of_get _ p s hs) hp

/-! ## Lemmas on the constructor and on the round trip -/

theorem getProp_of_ne_null (v : Json) (k : String) (h : v ≠ .null) :
    v.getProp k = .ok (v.prop k) := by
  cases v <;> first | exact absurd rfl h | rfl

theorem loadEntry_of_ne_null (c : Cache) (jsFile : String) (v : Json) (h : v ≠ .null) :
    Cache.loadEntry c jsFile v = .ok (if accepted v then c.withEntry jsFile v else c) := by
  unfold Cache.loadEntry truthyProp accepted Cache.withEntry
  simp only [getProp_of_ne_null v _ h]
  cases truthy (v.prop "provides") <;> cases truthy (v.prop "requires") <;>
    cases truthy (v.prop "modifiedDates") <;> simp [jsAnd]

theorem loadEntry_null (c : Cache) (jsFile : String) :
    Cache.loadEntry c jsFile .null = .error .typeError := by
  rfl

/-- The loop of the constructor stops at the first `null` entry. -/
theorem loadLoop_append_null (front back : List (String × Json)) (k : String) :
    ∀ c : Cache, Cache.loadLoop c (front ++ (k, .null) :: back) = Cache.loadLoop c front := by
  induction front with
  | nil =>
    intro c
    simp [Cache.loadLoop, loadEntry_null]
  | cons kv rest ih =>
    intro c
    obtain ⟨k', v⟩ := kv
    simp only [List.cons_append, Cache.loadLoop]
    cases Cache.loadEntry c k' v with
    | ok c' => exact ih c'
    | error e => rfl

theorem loadLoop_not_mem (doc : List (String × Json)) (p : String) :
    ∀ c : Cache, (∀ kv ∈ doc, kv.2 ≠ .null) → p ∉ JsObject.keys doc →
      JsObject.get (Cache.loadLoop c doc)._sourcesMap p = JsObject.get c._sourcesMap p ∧
      JsObject.get (Cache.loadLoop c doc)._modifiedDates p = JsObject.get c._modifiedDates p := by
  induction doc with
  | nil =>
    intro c _ _
    exact ⟨rfl, rfl⟩
  | cons kv rest ih =>
    intro c hnull hp
    obtain ⟨k, v⟩ := kv
    have hv : v ≠ .null := hnull (k, v) (List.mem_cons_self _ _)
    have hpk : p ≠ k := fun h => hp (by simp [JsObject.keys, h])
    have hprest : p ∉ JsObject.keys rest := fun h => hp (by
      simp only [JsObject.keys, List.map_cons, List.mem_cons]
      exact Or.inr h)
    have hrest : ∀ kv ∈ rest, kv.2 ≠ .null := fun kv h => hnull kv (List.mem_cons_of_mem _ h)
    simp only [Cache.loadLoop, loadEntry_of_ne_null c k v hv]
    obtain ⟨h1, h2⟩ := ih (if accepted v then c.withEntry k v else c) hrest hprest
    rw [h1, h2]
    cases accepted v
    · exact ⟨rfl, rfl⟩
    · simp only [if_true, Cache.withEntry]
      refine ⟨JsObject.get_write_ne _ _ _ _ hpk, ?_⟩
      cases v.prop "modifiedDates" with
      | none => exact JsObject.get_delete_ne _ _ _ hpk
      | some t => exact JsObject.get_write_ne _ _ _ _ hpk

theorem get_assign_of_truthy (o : JsObject Json) (k : String) (v : Option Json)
    (hk : k ≠ "__proto__") (h : truthy v = true) :
    JsObject.get (JsObject.assign o k v) k = v := by
  cases v with
  | none => simp [truthy] at h
  | some t => exact JsObject.get_write_eq o k t hk

/-- What the loop of the constructor leaves at a key other than `__proto__`
of a document with distinct keys and no `null` entry: the entry when it
passes the test of lines 28-32, otherwise what was there. -/
theorem loadLoop_get (doc : List (String × Json)) (p : String) (v : Json)
    (hproto : p ≠ "__proto__") :
    ∀ c : Cache, (∀ kv ∈ doc, kv.2 ≠ .null) → (JsObject.keys doc).Nodup →
      JsObject.get doc p = some v →
      JsObject.get (Cache.loadLoop c doc)._sourcesMap p =
        (if accepted v then
          some (Source.new p (v.prop "provides") (v.prop "requires")
            (truthy (v.prop "isModule")) .null)
         else JsObject.get c._sourcesMap p) ∧
      JsObject.get (Cache.loadLoop c doc)._modifiedDates p =
        (if accepted v then v.prop "modifiedDates" else JsObject.get c._modifiedDates p) := by
  induction doc with
  | nil =>
    intro c _ _ hget
    simp [JsObject.get] at hget
  | cons kv rest ih =>
    intro c hnull hnodup hget
    obtain ⟨k, v0⟩ := kv
    have hv0 : v0 ≠ .null := hnull (k, v0) (List.mem_cons_self _ _)
    have hrest : ∀ kv ∈ rest, kv.2 ≠ .null := fun kv h => hnull kv (List.mem_cons_of_mem _ h)
    have hnd : k ∉ JsObject.keys rest ∧ (JsObject.keys rest).Nodup := by
      simpa [JsObject.keys] using hnodup
    simp only [Cache.loadLoop, loadEntry_of_ne_null c k v0 hv0]
    by_cases hk : k = p
    · subst hk
      have hv : v0 = v := by simpa [JsObject.get] using hget
      subst hv
      obtain ⟨h1, h2⟩ :=
        loadLoop_not_mem rest k (if accepted v0 then c.withEntry k v0 else c) hrest hnd.1
      rw [h1, h2]
      cases ha : accepted v0
      · exact ⟨rfl, rfl⟩
      · simp only [if_true, Cache.withEntry]
        refine ⟨JsObject.get_write_eq _ _ _ hproto, get_assign_of_truthy _ _ _ hproto ?_⟩
        unfold accepted at ha
        simp only [Bool.and_eq_true] at ha
        exact ha.2.2
    · have hget' : JsObject.get rest p = some v := by
        simpa [JsObject.get, hk] using hget
      have hpk : p ≠ k := fun h => hk h.symm
      obtain ⟨h1, h2⟩ := ih (if accepted v0 then c.withEntry k v0 else c) hrest hnd.2 hget'
      rw [h1, h2]
      cases accepted v0
      · exact ⟨rfl, rfl⟩
      · simp only [if_true, Cache.withEntry]
        refine ⟨by rw [JsObject.get_write_ne _ _ _ _ hpk], ?_⟩
        cases v0.prop "modifiedDates" with
        | none => rw [JsObject.assign, JsObject.get_delete_ne _ _ _ hpk]
        | some t => rw [JsObject.assign, JsObject.get_write_ne _ _ _ _ hpk]

theorem JsObject.keys_set {α : Type} (o : JsObject α) (k : String) (v : α) :
    JsObject.keys (JsObject.set o k v) =
      if k ∈ JsObject.keys o then JsObject.keys o else JsObject.keys o ++ [k] := by
  induction o with
  | nil => simp [JsObject.set, JsObject.keys]
  | cons kv rest ih =>
    obtain ⟨k', v'⟩ := kv
    unfold JsObject.keys at ih ⊢
    by_cases h : k' = k
    · subst h
      simp [JsObject.set]
    · have h' : ¬ k = k' := fun e => h e.symm
      simp only [JsObject.set, h, if_false, List.map_cons, ih, List.mem_cons, h', false_or]
      split_ifs <;> simp

theorem JsObject.nodup_keys_set {α : Type} (o : JsObject α) (k : String) (v : α)
    (h : (JsObject.keys o).Nodup) : (JsObject.keys (JsObject.set o k v)).Nodup := by
  rw [JsObject.keys_set]
  split_ifs with hk
  · exact h
  · exact List.Nodup.append h (List.nodup_singleton k) (by simpa using hk)

theorem JsObject.mem_set {α : Type} (o : JsObject α) (k : String) (v : α) (x : String × α)
    (h : x ∈ JsObject.set o k v) : x ∈ o ∨ x = (k, v) := by
  induction o with
  | nil =>
    simp only [JsObject.set, List.mem_singleton] at h
    exact Or.inr h
  | cons kv rest ih =>
    obtain ⟨k', v'⟩ := kv
    by_cases hk : k' = k
    · subst hk
      simp only [JsObject.set, if_true, List.mem_cons] at h
      rcases h with h | h
      · exact Or.inr h
      · exact Or.inl (List.mem_cons_of_mem _ h)
    · simp only [JsObject.set, hk, if_false, List.mem_cons] at h
      rcases h with h | h
      · exact Or.inl (by rw [h]; exact List.mem_cons_self _ _)
      · rcases ih h with h | h
        · exact Or.inl (List.mem_cons_of_mem _ h)
        · exact Or.inr h

theorem JsObject.get_of_mem {α : Type} (o : JsObject α) (k : String) (v : α)
    (hnodup : (JsObject.keys o).Nodup) (h : (k, v) ∈ o) : JsObject.get o k = some v := by
  induction o with
  | nil => simp at h
  | cons kv rest ih =>
    obtain ⟨k', v'⟩ := kv
    have hnd : k' ∉ JsObject.keys rest ∧ (JsObject.keys rest).Nodup := by
      simpa [JsObject.keys] using hnodup
    simp only [List.mem_cons, Prod.mk.injEq] at h
    rcases h with ⟨h1, h2⟩ | h
    · simp [JsObject.get, h1, h2]
    · have hne : ¬ k' = k := by
        intro e
        subst e
        exact hnd.1 (by
          simp only [JsObject.keys, List.mem_map]
          exact ⟨(k', v), h, rfl⟩)
      simp [JsObject.get, hne, ih hnd.2 h]

theorem saveLoop_inv (fs : FileSystem) (c : Cache) :
    ∀ (ks : List String) (acc json : JsObject Json),
      Cache.saveLoop fs c ks acc = .ok json →
      (JsObject.keys acc).Nodup → (∀ kv ∈ acc, kv.2 ≠ .null) →
      (JsObject.keys json).Nodup ∧ ∀ kv ∈ json, kv.2 ≠ .null := by
  intro ks
  induction ks with
  | nil =>
    intro acc json h hn hv
    simp only [Cache.saveLoop, Except.ok.injEq] at h
    subst h
    exact ⟨hn, hv⟩
  | cons k rest ih =>
    intro acc json h hn hv
    simp only [Cache.saveLoop] at h
    split_ifs at h with he
    · cases hentry : Cache.saveEntry fs c k with
      | error e => simp [hentry] at h
      | ok entry =>
        simp only [hentry] at h
        refine ih _ json h (JsObject.nodup_keys_set _ _ _ hn) ?_
        intro kv hkv
        rcases JsObject.mem_set _ _ _ _ hkv with h1 | h1
        · exact hv kv h1
        · rw [h1]
          unfold Cache.saveEntry at hentry
          cases hs : JsObject.get c._sourcesMap k with
          | none => simp [hs] at hentry
          | some s =>
            cases ht : fs.statSyncMtime k with
            | error e => simp [hs, ht] at hentry
            | ok t =>
              simp only [hs, ht, Except.ok.injEq] at hentry
              rw [← hentry]
              simp
    · exact ih acc json h hn hv

theorem JsObject.read_of_get {α : Type} (o : JsObject α) (k : String) (v : α)
    (h : JsObject.get o k = some v) : JsObject.read o k = some (.own v) := by
  simp [JsObject.read, h]

theorem timestampEquals_read (coerced : Json → Int → Bool) (o : JsObject Json) (k : String)
    (t : Int) :
    timestampEquals coerced (JsObject.read o k) t = looseEq coerced (JsObject.get o k) t := by
  unfold JsObject.read
  cases JsObject.get o k with
  | some v => rfl
  | none =>
    dsimp only
    split_ifs <;> rfl

/-- The method `getSource` at a path with an own record. -/
theorem getSource_of_own (coerced : Json → Int → Bool) (fs : FileSystem) (c : Cache)
    (path : String) (source : Source) (h : JsObject.get c._sourcesMap path = some source) :
    Cache.getSource coerced fs c path =
      match fs.statSyncMtime path with
      | .error e => (.error e, c)
      | .ok t =>
        if looseEq coerced (JsObject.get c._modifiedDates path) t then
          (.ok (some (.own source)), c)
        else (.ok none, c.removeSource path) := by
  unfold Cache.getSource
  rw [JsObject.read_of_get _ _ _ h]
  simp only [timestampEquals_read]

/-- The method `getSource` at a path with no own record: the name of a
member of `Object.prototype` passes the test of line 50, and the comparison
of line 51 holds only on an own timestamp. -/
theorem getSource_of_not_own (coerced : Json → Int → Bool) (fs : FileSystem) (c : Cache)
    (path : String) (h : JsObject.get c._sourcesMap path = none) :
    Cache.getSource coerced fs c path =
      if path ∈ objectPrototypeNames then
        match fs.statSyncMtime path with
        | .error e => (.error e, c)
        | .ok t =>
          if looseEq coerced (JsObject.get c._modifiedDates path) t then
            (.ok (some (.inherited path)), c)
          else (.ok none, c.removeSource path)
      else (.ok none, c) := by
  have hr : JsObject.read c._sourcesMap path =
      if path ∈ objectPrototypeNames then some (.inherited path) else none := by
    simp [JsObject.read, h]
  unfold Cache.getSource
  rw [hr]
  split_ifs with hp
  · simp only [timestampEquals_read]
  · rfl

/-- The round trip through `save` and the constructor, for a file with a
modification time other than zero: a record cached under its own path, with
`provides` and `requires` as the constructor of `Source` leaves them, comes
back from `getSource` on the new cache with the same `path`, `provides`,
`requires` and `isModule`. The path is not `__proto__`, at which the
constructor writes no own property. -/
theorem save_load_roundtrip (coerced : Json → Int → Bool)
    (jsonParse : String → Except JsError Json) (atSave atLoad atGet : FileSystem)
    (c : Cache) (json : Json) (text path : String) (source : Source) (t : Int)
    (hsave : (Cache.save atSave c).1 = .ok json)
    (hfile : atLoad.existsSync c.file = true)
    (hcontent : atLoad.content c.file = some text)
    (hparse : jsonParse text = .ok json)
    (hsrc : JsObject.get c._sourcesMap path = some source)
    (htSave : atSave.mtime path = some t) (htGet : atGet.mtime path = some t)
    (hnz : t ≠ 0) (hproto : path ≠ "__proto__")
    (hp : truthy (some source.provides) = true) (hr : truthy (some source.requires) = true) :
    Cache.getSource coerced atGet (Cache.new jsonParse atLoad c.file) path =
      (.ok (some (.own ⟨source.isModule, source.provides, source.requires, path, .null⟩)),
       Cache.new jsonParse atLoad c.file) := by
  obtain ⟨kvs, hkvs, hget⟩ := save_eq atSave c
  have hjson : json = .obj kvs := by
    rw [hkvs] at hsave
    exact (Except.ok.inj hsave).symm
  subst hjson
  have hloop : Cache.saveLoop atSave c (JsObject.keys c._sourcesMap) [] = .ok kvs := by
    unfold Cache.save at hkvs
    cases h : Cache.saveLoop atSave c (JsObject.keys c._sourcesMap) [] with
    | error e => simp [h] at hkvs
    | ok j =>
      simp only [h, Prod.mk.injEq, Except.ok.injEq, Json.obj.injEq, and_true] at hkvs
      rw [hkvs]
  obtain ⟨hnodup, hnonnull⟩ := saveLoop_inv atSave c _ [] kvs hloop (by simp [JsObject.keys])
    (by simp)
  have hnew : Cache.new jsonParse atLoad c.file =
      Cache.loadLoop ⟨c.file, [], []⟩ kvs := by
    simp [Cache.new, hfile, FileSystem.readFileSync, hcontent, hparse, Json.typeof, Json.forIn]
  have hentry := hget path
  rw [hsrc, htSave] at hentry
  simp only [] at hentry
  obtain ⟨h1, h2⟩ := loadLoop_get kvs path _ hproto ⟨c.file, [], []⟩ hnonnull hnodup hentry
  have hacc : accepted (.obj [("isModule", .bool source.isModule), ("modifiedDates", .num t),
      ("provides", source.provides), ("requires", source.requires)]) = true := by
    have hnum : truthy (some (.num t)) = true := by simp [truthy, hnz]
    simp [accepted, Json.prop, JsObject.get, hp, hr, hnum]
  rw [hacc] at h1 h2
  simp only [if_true] at h1 h2
  rw [hnew, getSource_of_own coerced atGet _ path _ h1, h2]
  have hstat : atGet.statSyncMtime path = .ok t := by simp [FileSystem.statSyncMtime, htGet]
  simp only [hstat]
  have hloose : looseEq coerced (Json.prop (.obj [("isModule", .bool source.isModule),
      ("modifiedDates", .num t), ("provides", source.provides),
      ("requires", source.requires)]) "modifiedDates") t = true := by
    simp [Json.prop, JsObject.get, looseEq]
  rw [if_pos hloose]
  have hrec : Source.new path (Json.prop (.obj [("isModule", .bool source.isModule),
      ("modifiedDates", .num t), ("provides", source.provides),
      ("requires", source.requires)]) "provides")
      (Json.prop (.obj [("isModule", .bool source.isModule),
      ("modifiedDates", .num t), ("provides", source.provides),
      ("requires", source.requires)]) "requires")
      (truthy (Json.prop (.obj [("isModule", .bool source.isModule),
      ("modifiedDates", .num t), ("provides", source.provides),
      ("requires", source.requires)]) "isModule")) .null =
      ⟨source.isModule, source.provides, source.requires, path, .null⟩ := by
    have hbool : truthy (some (.bool source.isModule)) = source.isModule := rfl
    simp [Source.new, Json.prop, JsObject.get, hp, hr, hbool]
  rw [hrec]

/-! ## The cache -/

/-- C3: when a record is cached for the path and the timestamp recorded for
it equals the current modification time of the file, `getSource` returns
that record and leaves the cache, both mappings included, as it was. -/
theorem getSource_hit (coerced : Json → Int → Bool) (fs : FileSystem) (c : Cache)
    (path : String) (source : Source) (t : Int)
    (hsrc : JsObject.get c._sourcesMap path = some source)
    (hts : JsObject.get c._modifiedDates path = some (.num t))
    (hmtime : fs.mtime path = some t) :
    Cache.getSource coerced fs c path = (.ok (some source), c) := by
  rw [getSource_of_own coerced fs c path source hsrc]
  simp [hts, hmtime, FileSystem.statSyncMtime, looseEq]

/-- C3, at the scenario of the specification: the cache is built from the
file, `foo.js` was last modified at 1000. -/
theorem getSource_hit_witness :
    Cache.getSource neverEqual (fooFiles 1000) (Cache.new fooParse (fooFiles 1000) "cache.json")
      "foo.js" = (.ok (some fooRecord), Cache.new fooParse (fooFiles 1000) "cache.json") :=
  getSource_hit neverEqual (fooFiles 1000) (Cache.new fooParse (fooFiles 1000) "cache.json")
    "foo.js" fooRecord 1000 (by decide) (by decide) (by decide)

/-- C4: when a record is cached for the path, the file exists, and the
timestamp recorded differs from its current modification time or none is
recorded, `getSource` returns none, the path is then absent from both
mappings, every other path reads as before in both, and the object a later
`save` builds, whatever the files then are, has no entry for the path. -/
theorem getSource_stale (coerced : Json → Int → Bool) (fs : FileSystem) (c : Cache)
    (path : String) (source : Source) (t : Int)
    (hsrc : JsObject.get c._sourcesMap path = some source)
    (hmtime : fs.mtime path = some t)
    (hts : JsObject.get c._modifiedDates path = none ∨
      ∃ m, JsObject.get c._modifiedDates path = some (.num m) ∧ m ≠ t) :
    (Cache.getSource coerced fs c path).1 = .ok none ∧
    JsObject.get (Cache.getSource coerced fs c path).2._sourcesMap path = none ∧
    JsObject.get (Cache.getSource coerced fs c path).2._modifiedDates path = none ∧
    (∀ q, q ≠ path →
      JsObject.get (Cache.getSource coerced fs c path).2._sourcesMap q =
        JsObject.get c._sourcesMap q ∧
      JsObject.get (Cache.getSource coerced fs c path).2._modifiedDates q =
        JsObject.get c._modifiedDates q) ∧
    ∀ later : FileSystem, ∃ json,
      (Cache.save later (Cache.getSource coerced fs c path).2).1 = .ok (.obj json) ∧
      JsObject.get json path = none := by
  have hne : looseEq coerced (JsObject.get c._modifiedDates path) t = false := by
    rcases hts with h | ⟨m, h, hm⟩
    · simp [h, looseEq]
    · simp [h, looseEq, hm]
  have hget : Cache.getSource coerced fs c path = (.ok none, c.removeSource path) := by
    rw [getSource_of_own coerced fs c path source hsrc]
    simp [hmtime, FileSystem.statSyncMtime, hne]
  rw [hget]
  refine ⟨rfl, JsObject.get_delete_eq _ _, JsObject.get_delete_eq _ _, ?_, ?_⟩
  · intro q hq
    exact ⟨JsObject.get_delete_ne _ _ _ hq, JsObject.get_delete_ne _ _ _ hq⟩
  · intro later
    obtain ⟨json, hjson, hp⟩ := save_eq later (c.removeSource path)
    refine ⟨json, by rw [hjson], ?_⟩
    rw [hp path]
    have : JsObject.get (c.removeSource path)._sourcesMap path = none :=
      JsObject.get_delete_eq _ _
    rw [this]

/-- C4, at the scenario of the specification: `foo.js` is cached with the
timestamp 1000 and was last modified at 2000. -/
theorem getSource_stale_witness :
    (Cache.getSource neverEqual (fooFiles 2000) fooCache "foo.js").1 = .ok none ∧
    JsObject.get (Cache.getSource neverEqual (fooFiles 2000) fooCache "foo.js").2._sourcesMap
      "foo.js" = none ∧
    JsObject.get (Cache.getSource neverEqual (fooFiles 2000) fooCache "foo.js").2._modifiedDates
      "foo.js" = none ∧
    (∀ q, q ≠ "foo.js" →
      JsObject.get (Cache.getSource neverEqual (fooFiles 2000) fooCache "foo.js").2._sourcesMap q =
        JsObject.get fooCache._sourcesMap q ∧
      JsObject.get (Cache.getSource neverEqual (fooFiles 2000) fooCache "foo.js").2._modifiedDates
        q = JsObject.get fooCache._modifiedDates q) ∧
    ∀ later : FileSystem, ∃ json,
      (Cache.save later (Cache.getSource neverEqual (fooFiles 2000) fooCache "foo.js").2).1 =
        .ok (.obj json) ∧
      JsObject.get json "foo.js" = none :=
  getSource_stale neverEqual (fooFiles 2000) fooCache "foo.js" fooRecord 2000 (by decide)
    (by decide) (Or.inr ⟨1000, by decide, by decide⟩)

/-- C6 as stated fails: the cache built from the file of the scenario holds
the timestamp 1000 for `foo.js`, the file was last modified at 1000, and
`getSource` right after `setSource` returns the record just set. -/
theorem setSource_fresh_counterexample :
    (fooFiles 1000).mtime "foo.js" = some 1000 ∧
    Cache.new fooParse (fooFiles 1000) "cache.json" = fooCache ∧
    (Cache.getSource neverEqual (fooFiles 1000) (Cache.setSource fooCache "foo.js" fooRecord2)
      "foo.js").1 = .ok (some fooRecord2) ∧
    (Except.ok (some fooRecord2) : Except JsError (Option Source)) ≠ .ok none := by
  decide

/-- C6, amended: when the file exists and the cache holds no timestamp for
the path, or one that differs from the current modification time of the
file, `getSource` right after `setSource` returns none. -/
theorem getSource_after_setSource (coerced : Json → Int → Bool) (fs : FileSystem) (c : Cache)
    (path : String) (source : Source) (t : Int)
    (hmtime : fs.mtime path = some t)
    (hts : JsObject.get c._modifiedDates path = none ∨
      ∃ m, JsObject.get c._modifiedDates path = some (.num m) ∧ m ≠ t) :
    (Cache.getSource coerced fs (Cache.setSource c path source) path).1 = .ok none := by
  have hne : looseEq coerced (JsObject.get c._modifiedDates path) t = false := by
    rcases hts with h | ⟨m, h, hm⟩
    · simp [h, looseEq]
    · simp [h, looseEq, hm]
  have hdates : (Cache.setSource c path source)._modifiedDates = c._modifiedDates := rfl
  rcases JsObject.get_write_cases c._sourcesMap path source with hown | ⟨hproto, hnone, hsame⟩
  · rw [getSource_of_own coerced fs _ path source hown, hdates]
    simp [hmtime, FileSystem.statSyncMtime, hne]
  · have hnone' : JsObject.get (Cache.setSource c path source)._sourcesMap path = none := by
      show JsObject.get (JsObject.write c._sourcesMap path source) path = none
      rw [hsame, hnone]
    have hmem : path ∈ objectPrototypeNames := by
      rw [hproto]
      decide
    rw [getSource_of_not_own coerced fs _ path hnone', if_pos hmem, hdates]
    simp [hmtime, FileSystem.statSyncMtime, hne]

/-- C6, amended, at a cache that has no timestamp for `foo.js`. -/
theorem getSource_after_setSource_witness :
    (Cache.getSource neverEqual (fooFiles 1000)
      (Cache.setSource ⟨"cache.json", [], []⟩ "foo.js" fooRecord2) "foo.js").1 = .ok none :=
  getSource_after_setSource neverEqual (fooFiles 1000) ⟨"cache.json", [], []⟩ "foo.js"
    fooRecord2 1000 (by decide) (Or.inl (by decide))

/-- When `getSource` throws, what it does with no own record, and what it
leaves: it throws exactly when the test of line 50 holds, on an own record or
on the name of a member of `Object.prototype`, and the modification time of
the file cannot be read; at any other path with no own record it returns
none whatever the file system is; and when it throws the cache is as it
was. -/
theorem getSource_throws_iff (coerced : Json → Int → Bool) (fs : FileSystem) (c : Cache)
    (path : String) :
    ((∃ e, (Cache.getSource coerced fs c path).1 = .error e) ↔
      (((∃ source, JsObject.get c._sourcesMap path = some source) ∨
          path ∈ objectPrototypeNames) ∧ fs.mtime path = none)) ∧
    (JsObject.get c._sourcesMap path = none → path ∉ objectPrototypeNames →
      ∀ other : FileSystem, Cache.getSource coerced other c path = (.ok none, c)) ∧
    ((∃ e, (Cache.getSource coerced fs c path).1 = .error e) →
      (Cache.getSource coerced fs c path).2 = c) := by
  cases hs : JsObject.get c._sourcesMap path with
  | none =>
    by_cases hp : path ∈ objectPrototypeNames
    · rw [getSource_of_not_own coerced fs c path hs, if_pos hp]
      cases ht : fs.mtime path with
      | none => simp [ht, FileSystem.statSyncMtime, hp]
      | some t =>
        by_cases hl : looseEq coerced (JsObject.get c._modifiedDates path) t = true
        · simp [ht, FileSystem.statSyncMtime, hl, hp]
        · simp [ht, FileSystem.statSyncMtime, hl, hp]
    · refine ⟨?_, ?_, ?_⟩
      · rw [getSource_of_not_own coerced fs c path hs, if_neg hp]
        simp [hp]
      · intro _ _ other
        rw [getSource_of_not_own coerced other c path hs, if_neg hp]
      · rw [getSource_of_not_own coerced fs c path hs, if_neg hp]
        simp
  | some source =>
    rw [getSource_of_own coerced fs c path source hs]
    cases ht : fs.mtime path with
    | none => simp [ht, FileSystem.statSyncMtime]
    | some t =>
      by_cases hl : looseEq coerced (JsObject.get c._modifiedDates path) t = true
      · simp [ht, FileSystem.statSyncMtime, hl]
      · simp [ht, FileSystem.statSyncMtime, hl]

/-- C7 fails on the code at the name of a member of `Object.prototype`: a
new cache has no record for `toString`, yet `getSource('toString')` passes
the test of line 50 on the function every object inherits, calls `statSync`
and throws when no file has that name; with such a file it returns none; at
`foo.js` it returns none without a look at the files. -/
theorem getSource_inherited_name :
    JsObject.get (Cache.new fooParse noFiles "cache.json")._sourcesMap "toString" = none ∧
    Cache.getSource neverEqual noFiles (Cache.new fooParse noFiles "cache.json") "toString" =
      (.error (.ioError "toString"), ⟨"cache.json", [], []⟩) ∧
    Cache.getSource neverEqual toStringFiles (Cache.new fooParse noFiles "cache.json")
      "toString" = (.ok none, ⟨"cache.json", [], []⟩) ∧
    Cache.getSource neverEqual noFiles (Cache.new fooParse noFiles "cache.json") "foo.js" =
      (.ok none, ⟨"cache.json", [], []⟩) := by
  decide

/-- C8: `save` does not throw; the object it emits has an entry for a path
exactly when a record is cached for the path and the file exists, the entry
being `isModule`, `provides` and `requires` of the record with
`modifiedDates` the modification time of the file at the call; and the
cache, both mappings included, is as it was. -/
theorem save_snapshot (fs : FileSystem) (c : Cache) :
    ∃ json, (Cache.save fs c).1 = .ok (.obj json) ∧
      (∀ p, (∃ entry, JsObject.get json p = some entry) ↔
        ((∃ source, JsObject.get c._sourcesMap p = some source) ∧ ∃ t, fs.mtime p = some t)) ∧
      (∀ p source t, JsObject.get c._sourcesMap p = some source → fs.mtime p = some t →
        JsObject.get json p =
          some (.obj [("isModule", .bool source.isModule), ("modifiedDates", .num t),
            ("provides", source.provides), ("requires", source.requires)])) ∧
      (Cache.save fs c).2 = c := by
  obtain ⟨json, hjson, hp⟩ := save_eq fs c
  refine ⟨json, by rw [hjson], ?_, ?_, by rw [hjson]⟩
  · intro p
    rw [hp p]
    cases JsObject.get c._sourcesMap p <;> cases fs.mtime p <;> simp
  · intro p source t hs ht
    rw [hp p, hs, ht]

/-- C5 fails on the code at a file last modified at time zero: `save` writes
the entry with `modifiedDates` zero, the constructor reading the file back
drops it, and `getSource` on the new cache returns none, where the same
steps for a file last modified at 1000 return the record. -/
theorem roundtrip_at_epoch :
    (Cache.save (epochFiles 0 none) epochCache).1 = .ok (epochDoc 0) ∧
    Cache.new epochParse (epochFiles 0 (some epochText)) "cache.json" = ⟨"cache.json", [], []⟩ ∧
    (Cache.getSource neverEqual (epochFiles 0 (some epochText))
      (Cache.new epochParse (epochFiles 0 (some epochText)) "cache.json") "epoch.js").1 =
        .ok none ∧
    (Cache.save (epochFiles 1000 none) epochCache).1 = .ok (epochDoc 1000) ∧
    (Cache.getSource neverEqual (epochFiles 1000 (some laterText))
      (Cache.new epochParse (epochFiles 1000 (some laterText)) "cache.json") "epoch.js").1 =
        .ok (some epochRecord) := by
  decide

/-- C9 fails on the code at an entry with `modifiedDates` zero: with both
lists present the constructor leaves the cache empty, where the same entry
with `modifiedDates` one is taken into both mappings. -/
theorem load_zero_timestamp :
    Cache.new (fun _ => .ok (stampDoc 0)) cacheFileOnly "cache.json" = ⟨"cache.json", [], []⟩ ∧
    Cache.new (fun _ => .ok (stampDoc 1)) cacheFileOnly "cache.json" =
      ⟨"cache.json", [("a.js", ⟨false, strings ["A"], strings [], "a.js", .null⟩)],
        [("a.js", .num 1)]⟩ := by
  decide

/-- C10 fails on the code at a document with a `null` entry before a
well-formed one: reading the `null` entry throws, the loop ends, and the
well-formed entry is not loaded, where the other order loads it. -/
theorem load_null_entry_first :
    Cache.new (fun _ => .ok (.obj [("a.js", .null), ("b.js", goodEntry)])) cacheFileOnly
      "cache.json" = ⟨"cache.json", [], []⟩ ∧
    Cache.new (fun _ => .ok (.obj [("b.js", goodEntry), ("a.js", .null)])) cacheFileOnly
      "cache.json" = ⟨"cache.json", [("b.js", goodRecord)], [("b.js", .num 1000)]⟩ := by
  decide

/-! ## Frame of the in-memory operations and the invariant of the cache -/

theorem JsObject.delete_of_get_none {α : Type} (o : JsObject α) (k : String)
    (h : JsObject.get o k = none) : JsObject.delete o k = o := by
  induction o with
  | nil => rfl
  | cons kv rest ih =>
    obtain ⟨k', v'⟩ := kv
    by_cases hk : k' = k
    · simp [JsObject.get, hk] at h
    · simp only [JsObject.get, hk, if_false] at h
      simp [JsObject.delete, hk, ih h]

theorem JsObject.get_assign_ne (o : JsObject Json) (k q : String) (v : Option Json)
    (hq : q ≠ k) : JsObject.get (JsObject.assign o k v) q = JsObject.get o q := by
  cases v with
  | none => exact JsObject.get_delete_ne o k q hq
  | some t => exact JsObject.get_write_ne o k q t hq

theorem JsObject.get_assign_proto (o : JsObject Json) (v : Option Json)
    (h : JsObject.get o "__proto__" = none) :
    JsObject.get (JsObject.assign o "__proto__" v) "__proto__" = none := by
  cases v with
  | none => exact JsObject.get_delete_eq o _
  | some t => simp [JsObject.assign, JsObject.write, h]

/-- The frame of `setSource(path, record)` at a path other than `__proto__`:
the record mapping holds the record at the path and reads as before at every
other path, and the timestamp mapping and the file name are the ones before
the call; the operation is total, it has no way to throw. -/
theorem setSource_frame (c : Cache) (path : String) (source : Source)
    (hproto : path ≠ "__proto__") :
    JsObject.get (Cache.setSource c path source)._sourcesMap path = some source ∧
    (∀ q, q ≠ path →
      JsObject.get (Cache.setSource c path source)._sourcesMap q =
        JsObject.get c._sourcesMap q) ∧
    (Cache.setSource c path source)._modifiedDates = c._modifiedDates ∧
    (∀ q, JsObject.get (Cache.setSource c path source)._modifiedDates q =
      JsObject.get c._modifiedDates q) ∧
    (Cache.setSource c path source).file = c.file := by
  refine ⟨JsObject.get_write_eq _ _ _ hproto, ?_, rfl, fun _ => rfl, rfl⟩
  intro q hq
  exact JsObject.get_write_ne _ _ _ _ hq

/-- C15 fails on the code at the path `__proto__`: the assignment of line 74
runs the setter of `Object.prototype`, so the record mapping gets no own
property for the path and holds what it held, where the same call at
`foo.js` enters the record. -/
theorem setSource_at_proto :
    Cache.setSource ⟨"cache.json", [], []⟩ "__proto__" fooRecord = ⟨"cache.json", [], []⟩ ∧
    JsObject.get (Cache.setSource ⟨"cache.json", [], []⟩ "__proto__" fooRecord)._sourcesMap
      "__proto__" = none ∧
    JsObject.keys (Cache.setSource fooCache "__proto__" fooRecord2)._sourcesMap = ["foo.js"] ∧
    JsObject.get (Cache.setSource ⟨"cache.json", [], []⟩ "foo.js" fooRecord)._sourcesMap
      "foo.js" = some fooRecord ∧
    JsObject.keys (Cache.setSource fooCache "b.js" fooRecord2)._sourcesMap =
      ["foo.js", "b.js"] := by
  decide

/-- C16: after `removeSource(path)` the path is absent from both mappings
and every other path reads as before in both; when the path was absent from
both the cache is unchanged; and a second `removeSource(path)` changes
nothing. -/
theorem removeSource_spec (c : Cache) (path : String) :
    JsObject.get (Cache.removeSource c path)._sourcesMap path = none ∧
    JsObject.get (Cache.removeSource c path)._modifiedDates path = none ∧
    (∀ q, q ≠ path →
      JsObject.get (Cache.removeSource c path)._sourcesMap q = JsObject.get c._sourcesMap q ∧
      JsObject.get (Cache.removeSource c path)._modifiedDates q =
        JsObject.get c._modifiedDates q) ∧
    (JsObject.get c._sourcesMap path = none → JsObject.get c._modifiedDates path = none →
      Cache.removeSource c path = c) ∧
    Cache.removeSource (Cache.removeSource c path) path = Cache.removeSource c path := by
  have hnoop : ∀ d : Cache, JsObject.get d._sourcesMap path = none →
      JsObject.get d._modifiedDates path = none → Cache.removeSource d path = d := by
    intro d h1 h2
    unfold Cache.removeSource
    rw [JsObject.delete_of_get_none _ _ h1, JsObject.delete_of_get_none _ _ h2]
  refine ⟨JsObject.get_delete_eq _ _, JsObject.get_delete_eq _ _, ?_, hnoop c, ?_⟩
  · intro q hq
    exact ⟨JsObject.get_delete_ne _ _ _ hq, JsObject.get_delete_ne _ _ _ hq⟩
  · exact hnoop _ (JsObject.get_delete_eq _ _) (JsObject.get_delete_eq _ _)

theorem invariant_loadEntry (c c' : Cache) (jsFile : String) (v : Json)
    (hload : Cache.loadEntry c jsFile v = .ok c')
    (hinv : ∀ p t, JsObject.get c._modifiedDates p = some t →
      ∃ s, JsObject.get c._sourcesMap p = some s) :
    ∀ p t, JsObject.get c'._modifiedDates p = some t →
      ∃ s, JsObject.get c'._sourcesMap p = some s := by
  by_cases hv : v = .null
  · subst hv
    rw [loadEntry_null] at hload
    cases hload
  · rw [loadEntry_of_ne_null c jsFile v hv] at hload
    have hc' := Except.ok.inj hload
    subst hc'
    cases accepted v
    · exact hinv
    · intro p t hp
      simp only [if_true, Cache.withEntry] at hp ⊢
      by_cases hpk : p = jsFile
      · subst hpk
        rcases JsObject.get_write_cases c._sourcesMap p
          (Source.new p (v.prop "provides") (v.prop "requires")
            (truthy (v.prop "isModule")) .null) with hown | ⟨hproto, hnone, _⟩
        · exact ⟨_, hown⟩
        · subst hproto
          have hdates : JsObject.get c._modifiedDates "__proto__" = none := by
            cases hd : JsObject.get c._modifiedDates "__proto__" with
            | none => rfl
            | some u =>
              obtain ⟨s, hs⟩ := hinv "__proto__" u hd
              rw [hnone] at hs
              cases hs
          rw [JsObject.get_assign_proto _ _ hdates] at hp
          cases hp
      · rw [JsObject.get_assign_ne _ _ _ _ hpk] at hp
        rw [JsObject.get_write_ne _ _ _ _ hpk]
        exact hinv p t hp

theorem invariant_loadLoop (doc : List (String × Json)) :
    ∀ c : Cache,
      (∀ p t, JsObject.get c._modifiedDates p = some t →
        ∃ s, JsObject.get c._sourcesMap p = some s) →
      ∀ p t, JsObject.get (Cache.loadLoop c doc)._modifiedDates p = some t →
        ∃ s, JsObject.get (Cache.loadLoop c doc)._sourcesMap p = some s := by
  induction doc with
  | nil =>
    intro c hinv
    exact hinv
  | cons kv rest ih =>
    intro c hinv
    obtain ⟨k, v⟩ := kv
    simp only [Cache.loadLoop]
    cases hload : Cache.loadEntry c k v with
    | error e => exact hinv
    | ok c' => exact ih c' (invariant_loadEntry c c' k v hload hinv)

theorem invariant_new (jsonParse : String → Except JsError Json) (fs : FileSystem)
    (file : String) :
    ∀ p t, JsObject.get (Cache.new jsonParse fs file)._modifiedDates p = some t →
      ∃ s, JsObject.get (Cache.new jsonParse fs file)._sourcesMap p = some s := by
  have hempty : ∀ p t,
      JsObject.get (⟨file, [], []⟩ : Cache)._modifiedDates p = some t →
        ∃ s, JsObject.get (⟨file, [], []⟩ : Cache)._sourcesMap p = some s := by
    intro p t h
    simp [JsObject.get] at h
  unfold Cache.new
  by_cases he : fs.existsSync file = true
  · rw [if_pos he]
    cases fs.readFileSync file with
    | error e => exact hempty
    | ok content =>
      dsimp only
      cases jsonParse content with
      | error e => exact hempty
      | ok json =>
        dsimp only
        by_cases ho : ("object" == json.typeof) = true
        · rw [if_pos ho]
          exact invariant_loadLoop _ _ hempty
        · rw [if_neg ho]
          exact hempty
  · rw [if_neg he]
    exact hempty

theorem invariant_call (coerced : Json → Int → Bool) (c : Cache) (x : Call)
    (hinv : ∀ p t, JsObject.get c._modifiedDates p = some t →
      ∃ s, JsObject.get c._sourcesMap p = some s) :
    ∀ p t, JsObject.get (c.call coerced x)._modifiedDates p = some t →
      ∃ s, JsObject.get (c.call coerced x)._sourcesMap p = some s := by
  have hremove : ∀ path p t,
      JsObject.get (c.removeSource path)._modifiedDates p = some t →
        ∃ s, JsObject.get (c.removeSource path)._sourcesMap p = some s := by
    intro path p t hp
    by_cases hpk : p = path
    · subst hpk
      have : JsObject.get (c.removeSource p)._modifiedDates p = none :=
        JsObject.get_delete_eq _ _
      rw [this] at hp
      cases hp
    · have h1 : JsObject.get (c.removeSource path)._modifiedDates p =
          JsObject.get c._modifiedDates p := JsObject.get_delete_ne _ _ _ hpk
      have h2 : JsObject.get (c.removeSource path)._sourcesMap p =
          JsObject.get c._sourcesMap p := JsObject.get_delete_ne _ _ _ hpk
      rw [h1] at hp
      rw [h2]
      exact hinv p t hp
  cases x with
  | getSource fs path =>
    simp only [Cache.call, Cache.getSource]
    cases JsObject.read c._sourcesMap path with
    | none => exact hinv
    | some found =>
      simp only []
      cases fs.statSyncMtime path with
      | error e => exact hinv
      | ok t =>
        simp only []
        split_ifs
        · exact hinv
        · exact hremove path
  | setSource path source =>
    intro p t hp
    simp only [Cache.call, Cache.setSource] at hp ⊢
    by_cases hpk : p = path
    · subst hpk
      rcases JsObject.get_write_cases c._sourcesMap p source with hown | ⟨_, _, hsame⟩
      · exact ⟨_, hown⟩
      · rw [hsame]
        exact hinv p t hp
    · rw [JsObject.get_write_ne _ _ _ _ hpk]
      exact hinv p t hp
  | removeSource path => exact hremove path
  | save fs =>
    have : (c.save fs).2 = c := by
      unfold Cache.save
      cases Cache.saveLoop fs c (JsObject.keys c._sourcesMap) [] <;> rfl
    simp only [Cache.call, this]
    exact hinv

/-- C19: in the cache the constructor builds, and after any sequence of
`getSource`, `setSource`, `removeSource` and `save` calls on it, every path
with an entry in the timestamp mapping has an entry in the record mapping. -/
theorem timestamps_have_records (coerced : Json → Int → Bool)
    (jsonParse : String → Except JsError Json) (fs : FileSystem) (file : String)
    (calls : List Call) (p : String) (t : Json)
    (ht : JsObject.get
      (Cache.calls coerced (Cache.new jsonParse fs file) calls)._modifiedDates p = some t) :
    ∃ s, JsObject.get
      (Cache.calls coerced (Cache.new jsonParse fs file) calls)._sourcesMap p = some s := by
  have hcalls : ∀ (calls : List Call) (c : Cache),
      (∀ p t, JsObject.get c._modifiedDates p = some t →
        ∃ s, JsObject.get c._sourcesMap p = some s) →
      ∀ p t, JsObject.get (Cache.calls coerced c calls)._modifiedDates p = some t →
        ∃ s, JsObject.get (Cache.calls coerced c calls)._sourcesMap p = some s := by
    intro calls
    induction calls with
    | nil =>
      intro c hinv
      exact hinv
    | cons x rest ih =>
      intro c hinv
      exact ih (c.call coerced x) (invariant_call coerced c x hinv)
  exact hcalls calls _ (invariant_new jsonParse fs file) p t ht

/-- C19, at the cache of the scenario after a new record was set for
`foo.js`, a stale entry was looked up, and the cache was saved. -/
theorem timestamps_have_records_witness :
    ∃ s, JsObject.get
      (Cache.calls neverEqual (Cache.new fooParse (fooFiles 1000) "cache.json")
        [.setSource "foo.js" fooRecord2, .setSource "b.js" goodRecord,
         .getSource (fooFiles 1000) "foo.js", .save (fooFiles 1000),
         .removeSource "b.js"])._sourcesMap "foo.js" = some s :=
  timestamps_have_records neverEqual fooParse (fooFiles 1000) "cache.json"
    [.setSource "foo.js" fooRecord2, .setSource "b.js" goodRecord,
     .getSource (fooFiles 1000) "foo.js", .save (fooFiles 1000), .removeSource "b.js"]
    "foo.js" (.num 1000) (by decide)

/-! ## The extractor, continued -/

theorem hasWindow_of_not_hasGoogCall (tokens : List Token) (method : String)
    (h : hasGoogCall tokens = false) : hasWindow method tokens = false := by
  unfold hasGoogCall at h
  unfold hasWindow
  rw [List.any_eq_false] at h ⊢
  intro w hw
  have := h w hw
  unfold callsMethod
  cases hg : googCall w with
  | none => simp
  | some mt => simp [hg] at this

theorem declaredBy_of_not_hasGoogCall (tokens : List Token) (methods : List String)
    (h : hasGoogCall tokens = false) : declaredBy methods tokens = [] := by
  unfold hasGoogCall at h
  unfold declaredBy
  rw [List.any_eq_false] at h
  rw [List.filterMap_eq_nil_iff]
  intro w hw
  have := h w hw
  unfold declared
  cases hg : googCall w with
  | none => rfl
  | some mt => simp [hg] at this

/-- C12 as stated fails: a base file with the flag `@provideGoog` in a
comment and no call of a method of `goog` gets `provides = ["goog"]`. -/
theorem no_calls_provides_counterexample :
    sampleFiles.content "closure/base.js" = some baseText ∧
    sampleEsprima.tokenize baseText = .ok baseTokens ∧
    hasGoogCall baseTokens = false ∧
    (Source.createFromFile sampleEsprima sampleFiles 0 "closure/base.js" false).1 =
      .ok ⟨false, strings ["goog"], strings [], "closure/base.js", .null⟩ ∧
    strings ["goog"] ≠ strings [] := by
  decide

/-- C12, amended: when no window of the token list has the shape
`goog . <identifier> ( <string literal>`, `Source.createFromFile` returns a
record with empty `requires`, `isModule` false, and `provides` empty but
for the `goog` the comment scan adds when it finds the flag. -/
theorem createFromFile_no_calls (esprima : Esprima) (fs : FileSystem)
    (lastIndex : Nat) (path : String) (opt_saveSyntaxTree : Bool) (source : String)
    (tokens : List Token)
    (hread : fs.content path = some source)
    (hparse : opt_saveSyntaxTree = true → ∃ tree, esprima.parse source = .ok tree)
    (htok : esprima.tokenize source = .ok tokens)
    (hnone : hasGoogCall tokens = false) :
    ∃ src, (Source.createFromFile esprima fs lastIndex path opt_saveSyntaxTree).1 = .ok src ∧
      src.provides =
        strings (if (Source.hasProvideGoogFlag source lastIndex).1 then ["goog"] else []) ∧
      src.requires = strings [] ∧ src.isModule = false := by
  obtain ⟨tree, h⟩ :=
    createFromFile_eq esprima fs lastIndex path opt_saveSyntaxTree source tokens hread hparse htok
  rw [h]
  refine ⟨_, rfl, ?_, ?_, ?_⟩ <;>
    simp [hasWindow_of_not_hasGoogCall tokens _ hnone,
      declaredBy_of_not_hasGoogCall tokens _ hnone]

/-- C12, amended, at a file with no comment and no call. -/
theorem createFromFile_no_calls_witness :
    ∃ src, (Source.createFromFile sampleEsprima sampleFiles 0 "plain.js" true).1 = .ok src ∧
      src.provides = strings [] ∧ src.requires = strings [] ∧ src.isModule = false :=
  createFromFile_no_calls sampleEsprima sampleFiles 0 "plain.js" true plainText plainTokens
    (by decide) (fun _ => ⟨_, rfl⟩) (by decide) (by decide)

theorem declared_of_callsMethod_module (w : List Token) (h : callsMethod "module" w = true) :
    ∃ ns, declared ["provide", "module"] w = some ns := by
  unfold callsMethod at h
  unfold declared
  cases hg : googCall w with
  | none => simp [hg] at h
  | some mt =>
    obtain ⟨m, text⟩ := mt
    simp only [hg, decide_eq_true_eq] at h
    subst h
    exact ⟨unquote text, by simp⟩

/-- C14 as stated fails: a file with a module form followed by a provide
gets a record with `isModule` true and two namespaces in `provides`. -/
theorem module_two_provides_counterexample :
    sampleFiles.content "mod.js" = some moduleText ∧
    sampleEsprima.tokenize moduleText = .ok moduleTokens ∧
    (Source.createFromFile sampleEsprima sampleFiles 0 "mod.js" false).1 =
      .ok ⟨true, strings ["m", "a.b"], strings [], "mod.js", .null⟩ ∧
    ["m", "a.b"].length ≠ 1 := by
  decide

/-- C14, amended: a record `Source.createFromFile` returns with `isModule`
true has at least one namespace in `provides`; the unquoted string of every
`goog . module ( <string>` window is among them; and there is exactly one
when the token list has a single `goog.provide` or `goog.module` window and
the comment scan does not find the flag. -/
theorem createFromFile_module_provides (esprima : Esprima) (fs : FileSystem)
    (lastIndex : Nat) (path : String) (opt_saveSyntaxTree : Bool) (source : String)
    (tokens : List Token) (src : Source)
    (hread : fs.content path = some source)
    (hparse : opt_saveSyntaxTree = true → ∃ tree, esprima.parse source = .ok tree)
    (htok : esprima.tokenize source = .ok tokens)
    (hres : (Source.createFromFile esprima fs lastIndex path opt_saveSyntaxTree).1 = .ok src)
    (hmod : src.isModule = true) :
    ∃ xs, src.provides = strings xs ∧ 1 ≤ xs.length ∧
      (∀ w ∈ windows tokens, callsMethod "module" w = true →
        ∃ ns, declared ["provide", "module"] w = some ns ∧ ns ∈ xs) ∧
      ((declaredBy ["provide", "module"] tokens).length = 1 →
        (Source.hasProvideGoogFlag source lastIndex).1 = false → xs.length = 1) := by
  obtain ⟨tree, h⟩ :=
    createFromFile_eq esprima fs lastIndex path opt_saveSyntaxTree source tokens hread hparse htok
  rw [h] at hres
  have hsrc := (Except.ok.inj hres).symm
  subst hsrc
  simp only at hmod
  have htest : hasWindow "setTestOnly" tokens = false := by
    cases ht : hasWindow "setTestOnly" tokens
    · rfl
    · simp [ht] at hmod
  simp only [htest, Bool.false_eq_true, if_false] at hmod ⊢
  have hmem : ∀ w ∈ windows tokens, callsMethod "module" w = true →
      ∃ ns, declared ["provide", "module"] w = some ns ∧
        ns ∈ declaredBy ["provide", "module"] tokens := by
    intro w hw hc
    obtain ⟨ns, hns⟩ := declared_of_callsMethod_module w hc
    refine ⟨ns, hns, ?_⟩
    unfold declaredBy
    rw [List.mem_filterMap]
    exact ⟨w, hw, hns⟩
  refine ⟨_, rfl, ?_, ?_, ?_⟩
  · unfold hasWindow at hmod
    rw [List.any_eq_true] at hmod
    obtain ⟨w, hw, hc⟩ := hmod
    obtain ⟨ns, _, hin⟩ := hmem w hw hc
    have := List.length_pos_of_mem hin
    rw [List.length_append]
    omega
  · intro w hw hc
    obtain ⟨ns, hns, hin⟩ := hmem w hw hc
    exact ⟨ns, hns, List.mem_append_left _ hin⟩
  · intro hone hflag
    simp [hflag, hone]

/-- C14, amended, at a file with one module form and a require. -/
theorem createFromFile_module_provides_witness :
    ∃ xs, (⟨true, strings ["m"], strings ["a.b"], "single.js", .null⟩ : Source).provides =
        strings xs ∧ 1 ≤ xs.length ∧
      (∀ w ∈ windows singleTokens, callsMethod "module" w = true →
        ∃ ns, declared ["provide", "module"] w = some ns ∧ ns ∈ xs) ∧
      ((declaredBy ["provide", "module"] singleTokens).length = 1 →
        (Source.hasProvideGoogFlag singleText 0).1 = false → xs.length = 1) :=
  createFromFile_module_provides sampleEsprima sampleFiles 0 "single.js" false singleText
    singleTokens ⟨true, strings ["m"], strings ["a.b"], "single.js", .null⟩
    (by decide) (fun h => absurd h (by decide)) (by decide) (by decide) rfl

/-- C17: the record `Source.createFromFile` returns has `isModule` true
exactly when no window of the token list is a `goog.setTestOnly(<string>)`
call and some window is a `goog . module ( <string>` call; windows of
`goog.provide` and `goog.require` play no part. -/
theorem createFromFile_isModule_iff (esprima : Esprima) (fs : FileSystem)
    (lastIndex : Nat) (path : String) (opt_saveSyntaxTree : Bool) (source : String)
    (tokens : List Token)
    (hread : fs.content path = some source)
    (hparse : opt_saveSyntaxTree = true → ∃ tree, esprima.parse source = .ok tree)
    (htok : esprima.tokenize source = .ok tokens) :
    ∃ src, (Source.createFromFile esprima fs lastIndex path opt_saveSyntaxTree).1 = .ok src ∧
      (src.isModule = true ↔
        (hasWindow "setTestOnly" tokens = false ∧ hasWindow "module" tokens = true)) := by
  obtain ⟨tree, h⟩ :=
    createFromFile_eq esprima fs lastIndex path opt_saveSyntaxTree source tokens hread hparse htok
  rw [h]
  refine ⟨_, rfl, ?_⟩
  cases hasWindow "setTestOnly" tokens <;> simp

/-- C17, at a file with a module form, and at a test-only file. -/
theorem createFromFile_isModule_iff_witness :
    (∃ src, (Source.createFromFile exampleEsprima exampleFiles 0 "decl.js" false).1 = .ok src ∧
      (src.isModule = true ↔
        (hasWindow "setTestOnly" declTokens = false ∧ hasWindow "module" declTokens = true))) ∧
    hasWindow "module" declTokens = true ∧ hasWindow "setTestOnly" declTokens = false :=
  ⟨createFromFile_isModule_iff exampleEsprima exampleFiles 0 "decl.js" false declText
    declTokens (by decide) (fun h => absurd h (by decide)) (by decide), by decide, by decide⟩

/-- C18: for every token list, every index `i - 4` to `i` the two loops can
read lies within the list, neither loop throws, the scan as a whole does not
throw, and a list of fewer than five tokens leaves `provides` and `requires`
empty and `isModule` false. -/
theorem scan_in_bounds (tokens : List Token) :
    (∀ i ∈ forRange 4 tokens.length, ∀ k : Nat, k ≤ 4 →
      ∃ t, tokenAt tokens ((i : Int) - (k : Int)) = .ok t) ∧
    (∃ b, testOnlyLoop tokens (forRange 4 tokens.length) = .ok b) ∧
    (∃ d, declarationLoop tokens (forRange 4 tokens.length) ⟨[], [], false⟩ = .ok d) ∧
    (∃ d, scanTokens tokens = .ok d) ∧
    (tokens.length < 5 → scanTokens tokens = .ok ⟨[], [], false⟩) := by
  refine ⟨?_, ?_, ?_, ⟨_, scanTokens_eq tokens⟩, ?_⟩
  · intro i hi k hk
    unfold forRange at hi
    rw [List.mem_range'_1] at hi
    have hlt : i - k < tokens.length := by omega
    refine ⟨tokens.get ⟨i - k, hlt⟩, ?_⟩
    unfold tokenAt
    have h1 : ¬ ((i : Int) - (k : Int) < 0) := by omega
    have h2 : ((i : Int) - (k : Int)).toNat = i - k := by omega
    rw [if_neg h1, h2, List.get?_eq_get hlt]
  · have h := testOnlyLoop_drop tokens tokens 0 rfl
    simp only [Nat.zero_add] at h
    exact ⟨_, h⟩
  · have h := declarationLoop_drop tokens tokens 0 ⟨[], [], false⟩ rfl
    simp only [Nat.zero_add] at h
    exact ⟨_, h⟩
  · intro hshort
    have hw : windows tokens = [] := by
      cases tokens with
      | nil => rfl
      | cons a rest =>
        have : ¬ 4 ≤ rest.length := by
          simp only [List.length_cons] at hshort
          omega
        simp [windows, this]
    rw [scanTokens_eq]
    simp [hasWindow, declaredBy, hw]

/-! ## Lemmas on the comment scan -/

theorem matchHere_cons_cons (c d : Char) (cs : List Char) :
    matchHere (c :: d :: cs) =
      if c = '/' ∧ d = '*' then (lazyClose cs).map (fun n => n + 4) else none := by
  by_cases hc : c = '/'
  · by_cases hd : d = '*'
    · subst hc hd
      simp [matchHere]
    · subst hc
      simp only [hd, and_false, if_false]
      unfold matchHere
      split
      · rename_i h
        simp only [List.cons.injEq, true_and] at h
        exact absurd h.1 hd
      · rfl
  · simp only [hc, false_and, if_false]
    unfold matchHere
    split
    · rename_i h
      simp only [List.cons.injEq] at h
      exact absurd h.1 hc
    · rfl

theorem matchHere_singleton (c : Char) : matchHere [c] = none := by
  unfold matchHere
  split
  · rename_i h
    simp at h
  · rfl

theorem lazyClose_tail (c : Char) (cs : List Char) (h : lazyClose (c :: cs) = none) :
    lazyClose cs = none := by
  unfold lazyClose at h
  split_ifs at h
  simpa using h

theorem lazyClose_le (cs : List Char) : ∀ n, lazyClose cs = some n → n + 2 ≤ cs.length := by
  induction cs with
  | nil =>
    intro n h
    simp [lazyClose] at h
  | cons c rest ih =>
    intro n h
    unfold lazyClose at h
    split_ifs at h with hc
    · cases rest with
      | nil => simp at hc
      | cons d cs =>
        simp only [Option.some.injEq] at h
        subst h
        simp
    · cases hl : lazyClose rest with
      | none => simp [hl] at h
      | some m =>
        simp only [hl, Option.map_some', Option.some.injEq] at h
        subst h
        have := ih m hl
        simp only [List.length_cons]
        omega

theorem commentRegions_inside (cs : List Char) :
    ∀ acc : List Char,
      (lazyClose cs = none → commentRegions (some acc) cs = []) ∧
      (∀ n, lazyClose cs = some n →
        commentRegions (some acc) cs =
          (acc ++ cs.take (n + 2)) :: commentRegions none (cs.drop (n + 2))) := by
  induction cs with
  | nil =>
    intro acc
    refine ⟨fun _ => by rw [commentRegions], fun n h => ?_⟩
    simp [lazyClose] at h
  | cons c rest ih =>
    intro acc
    cases rest with
    | nil =>
      refine ⟨fun _ => by rw [commentRegions], fun n h => ?_⟩
      simp [lazyClose] at h
    | cons d cs =>
      rw [commentRegions]
      by_cases hcd : c = '*' ∧ d = '/'
      · rw [if_pos hcd]
        have hl : lazyClose (c :: d :: cs) = some 0 := by
          rw [lazyClose]
          simp [hcd.1, hcd.2]
        refine ⟨fun h => (by rw [hl] at h; cases h), fun n h => ?_⟩
        rw [hl] at h
        have hn := Option.some.inj h
        subst hn
        simp [hcd.1, hcd.2]
      · rw [if_neg hcd]
        have hl : lazyClose (c :: d :: cs) = (lazyClose (d :: cs)).map (fun n => n + 1) := by
          rw [lazyClose]
          have : ¬ (c = '*' ∧ (d :: cs).head? = some '/') := by
            simpa using hcd
          rw [if_neg this]
        obtain ⟨ih1, ih2⟩ := ih (acc ++ [c])
        refine ⟨fun h => ?_, fun n h => ?_⟩
        · rw [hl] at h
          cases hr : lazyClose (d :: cs) with
          | none => exact ih1 hr
          | some m => simp [hr] at h
        · rw [hl] at h
          cases hr : lazyClose (d :: cs) with
          | none => simp [hr] at h
          | some m =>
            simp only [hr, Option.map_some', Option.some.injEq] at h
            subst h
            rw [ih2 m hr]
            simp

theorem searchFrom_of_lazyClose_none (xs : List Char) :
    lazyClose xs = none → ∀ q, searchFrom xs q = none := by
  induction xs with
  | nil =>
    intro _ q
    rfl
  | cons c rest ih =>
    intro h q
    have hrest := lazyClose_tail c rest h
    have hm : matchHere (c :: rest) = none := by
      cases rest with
      | nil => exact matchHere_singleton c
      | cons d cs =>
        rw [matchHere_cons_cons]
        split_ifs
        · rw [lazyClose_tail d cs hrest]
          rfl
        · rfl
    rw [searchFrom, hm]
    exact ih hrest (q + 1)

theorem searchFrom_regions (cs : List Char) :
    ∀ p : Nat,
      (searchFrom cs p = none → commentRegions none cs = []) ∧
      (∀ b e, searchFrom cs p = some (b, e) →
        p ≤ b ∧ b + 4 ≤ e ∧ e ≤ p + cs.length ∧
        commentRegions none cs =
          ((cs.drop (b - p)).take (e - b)) :: commentRegions none (cs.drop (e - p))) := by
  induction cs with
  | nil =>
    intro p
    refine ⟨fun _ => by rw [commentRegions], fun b e h => ?_⟩
    simp [searchFrom] at h
  | cons c rest ih =>
    intro p
    cases rest with
    | nil =>
      have hs : searchFrom [c] p = none := by
        rw [searchFrom, matchHere_singleton]
        rfl
      refine ⟨fun _ => by rw [commentRegions], fun b e h => ?_⟩
      rw [hs] at h
      cases h
    | cons d cs =>
      rw [commentRegions]
      by_cases hcd : c = '/' ∧ d = '*'
      · rw [if_pos hcd]
        obtain ⟨in1, in2⟩ := commentRegions_inside cs ['/', '*']
        cases hl : lazyClose cs with
        | none =>
          have hs : searchFrom (c :: d :: cs) p = none := by
            rw [searchFrom, matchHere_cons_cons, if_pos hcd, hl]
            simp only [Option.map_none']
            have hd : matchHere (d :: cs) = none := by
              cases cs with
              | nil => exact matchHere_singleton d
              | cons x xs =>
                rw [matchHere_cons_cons]
                have : ¬ (d = '/' ∧ x = '*') := by
                  rw [hcd.2]
                  intro h
                  exact absurd h.1 (by decide)
                rw [if_neg this]
            rw [searchFrom, hd]
            exact searchFrom_of_lazyClose_none cs hl (p + 1 + 1)
          refine ⟨fun _ => in1 hl, fun b e h => ?_⟩
          rw [hs] at h
          cases h
        | some m =>
          have hs : searchFrom (c :: d :: cs) p = some (p, p + (m + 4)) := by
            rw [searchFrom, matchHere_cons_cons, if_pos hcd, hl]
            rfl
          refine ⟨fun h => (by rw [hs] at h; cases h), fun b e h => ?_⟩
          rw [hs] at h
          simp only [Option.some.injEq, Prod.mk.injEq] at h
          obtain ⟨hb, he⟩ := h
          subst hb he
          have hle := lazyClose_le cs m hl
          refine ⟨le_refl _, by omega, by simp only [List.length_cons]; omega, ?_⟩
          rw [in2 m hl]
          have h1 : p + (m + 4) - p = (m + 2) + 1 + 1 := by omega
          rw [Nat.sub_self, h1, hcd.1, hcd.2]
          simp
      · rw [if_neg hcd]
        have hs : searchFrom (c :: d :: cs) p = searchFrom (d :: cs) (p + 1) := by
          rw [searchFrom, matchHere_cons_cons, if_neg hcd]
        rw [hs]
        obtain ⟨ih1, ih2⟩ := ih (p + 1)
        refine ⟨ih1, fun b e h => ?_⟩
        obtain ⟨h1, h2, h3, h4⟩ := ih2 b e h
        refine ⟨by omega, h2, by simp only [List.length_cons] at h3 ⊢; omega, ?_⟩
        rw [h4]
        have hb : b - p = (b - (p + 1)) + 1 := by omega
        have he : e - p = (e - (p + 1)) + 1 := by omega
        rw [hb, he]
        rfl


theorem indexOfFrom_iff (needle : List Char) (hay : List Char) :
    ∀ i : Nat, (-1 < indexOfFrom needle hay i) ↔ needle <:+: hay := by
  induction hay with
  | nil =>
    intro i
    rw [indexOfFrom, List.infix_nil]
    split_ifs with h
    · exact ⟨fun _ => h, fun _ => by omega⟩
    · exact ⟨fun h' => absurd h' (by omega), fun h' => absurd h' h⟩
  | cons c cs ih =>
    intro i
    rw [indexOfFrom, List.infix_cons_iff]
    by_cases hp : needle.isPrefixOf (c :: cs) = true
    · rw [if_pos hp]
      exact ⟨fun _ => Or.inl (List.isPrefixOf_iff_prefix.mp hp), fun _ => by omega⟩
    · rw [if_neg hp, ih (i + 1)]
      constructor
      · exact fun h => Or.inr h
      · rintro (h | h)
        · exact absurd (List.isPrefixOf_iff_prefix.mpr h) hp
        · exact h

theorem flagTest_iff (r : List Char) :
    (-1 < indexOf (String.mk r) "@provideGoog") ↔ provideGoogFlag <:+: r :=
  indexOfFrom_iff _ r 0

/-- The loop of `hasProvideGoogFlag` started at a `lastIndex` within the
text, with fuel for the text that is left: it answers whether a
block-comment region of the text from `lastIndex` on holds the flag. -/
theorem hasProvideGoogFlagLoop_iff (source : String) :
    ∀ (fuel lastIndex : Nat), lastIndex ≤ source.length →
      source.length - lastIndex < fuel →
      ((hasProvideGoogFlagLoop source fuel lastIndex).1 = true ↔
        ∃ r ∈ commentRegions none (source.data.drop lastIndex), provideGoogFlag <:+: r) := by
  intro fuel
  induction fuel with
  | zero =>
    intro lastIndex _ h
    omega
  | succ fuel ih =>
    intro lastIndex hle hfuel
    have hlen : source.length = source.data.length := rfl
    have hnot : ¬ (source.length < lastIndex) := by omega
    obtain ⟨hs1, hs2⟩ := searchFrom_regions (source.data.drop lastIndex) lastIndex
    rw [hasProvideGoogFlagLoop, exec, if_neg hnot]
    cases hs : searchFrom (source.data.drop lastIndex) lastIndex with
    | none =>
      rw [hs1 hs]
      simp
    | some be =>
      obtain ⟨b, e⟩ := be
      obtain ⟨h1, h2, h3, h4⟩ := hs2 b e hs
      have hdl : (source.data.drop lastIndex).length = source.data.length - lastIndex :=
        List.length_drop _ _
      have hdb : (source.data.drop lastIndex).drop (b - lastIndex) = source.data.drop b := by
        rw [List.drop_drop]
        congr 1
        omega
      have hde : (source.data.drop lastIndex).drop (e - lastIndex) = source.data.drop e := by
        rw [List.drop_drop]
        congr 1
        omega
      rw [h4, hdb, hde]
      simp only [List.mem_cons, exists_eq_or_imp]
      by_cases hflag : -1 < indexOf (String.mk ((source.data.drop b).take (e - b))) "@provideGoog"
      · rw [if_pos hflag]
        exact ⟨fun _ => Or.inl ((flagTest_iff _).mp hflag), fun _ => rfl⟩
      · rw [if_neg hflag]
        have he : e ≤ source.length := by omega
        have hf : source.length - e < fuel := by omega
        rw [ih e he hf]
        constructor
        · exact fun h => Or.inr h
        · rintro (h | h)
          · exact absurd ((flagTest_iff _).mpr h) hflag
          · exact h

/-- The function `hasProvideGoogFlag` called when `lastIndex` is zero: it is
true exactly when a block-comment region of the text holds the flag. -/
theorem hasProvideGoogFlag_fresh (source : String) :
    (Source.hasProvideGoogFlag source 0).1 = true ↔
      ∃ r ∈ commentRegions none source.data, provideGoogFlag <:+: r := by
  have h := hasProvideGoogFlagLoop_iff source (source.length + 2) 0 (Nat.zero_le _) (by omega)
  simpa [Source.hasProvideGoogFlag] using h

/-- The function `hasProvideGoogFlag` called with the `lastIndex` an earlier
call left: it sees the text from `lastIndex` on only, and nothing of it when
`lastIndex` is beyond the end. -/
theorem hasProvideGoogFlag_stale (source : String) (lastIndex : Nat) :
    (Source.hasProvideGoogFlag source lastIndex).1 = true ↔
      (lastIndex ≤ source.length ∧
        ∃ r ∈ commentRegions none (source.data.drop lastIndex), provideGoogFlag <:+: r) := by
  by_cases hle : lastIndex ≤ source.length
  · have h := hasProvideGoogFlagLoop_iff source (source.length + 2) lastIndex hle (by omega)
    simp only [Source.hasProvideGoogFlag, h, hle, true_and]
  · have hlt : source.length < lastIndex := by omega
    simp [Source.hasProvideGoogFlag, hasProvideGoogFlagLoop, exec, hlt, hle]

/-! ## The comment scan and the state it shares -/

theorem createFromFile_appends_goog (esprima : Esprima) (fs : FileSystem)
    (lastIndex : Nat) (path : String) (opt_saveSyntaxTree : Bool) (source : String)
    (tokens : List Token)
    (hread : fs.content path = some source)
    (hparse : opt_saveSyntaxTree = true → ∃ tree, esprima.parse source = .ok tree)
    (htok : esprima.tokenize source = .ok tokens)
    (hflag : (Source.hasProvideGoogFlag source lastIndex).1 = true) :
    ∃ src xs, (Source.createFromFile esprima fs lastIndex path opt_saveSyntaxTree).1 = .ok src ∧
      src.provides = strings (xs ++ ["goog"]) := by
  obtain ⟨tree, h⟩ :=
    createFromFile_eq esprima fs lastIndex path opt_saveSyntaxTree source tokens hread hparse htok
  rw [h]
  refine ⟨_, if hasWindow "setTestOnly" tokens then []
    else declaredBy ["provide", "module"] tokens, rfl, ?_⟩
  simp [hflag]

/-- C11 fails on the code at a file scanned right after another file in
which the flag was found: the first scan leaves `lastIndex` at 19, the end
of its comment; the comment of the second file, which holds the flag, lies
before that index, the scan of the second file misses it, answers false, and
the record gets no `goog`. -/
theorem flag_missed_after_flagged_file :
    (Source.createFromFile exampleEsprima exampleFiles 0 "base.js" false).2 = 19 ∧
    commentRegions none baseText.data = ["/** @provideGoog */".data] ∧
    provideGoogFlag <:+: "/** @provideGoog */".data ∧
    (Source.hasProvideGoogFlag baseText 19).1 = false ∧
    (Source.createFromFile sampleEsprima sampleFiles 19 "closure/base.js" false).1 =
      .ok ⟨false, strings [], strings [], "closure/base.js", .null⟩ := by
  decide

/-- C13 fails on the code at two calls in a row with the same text: the
first call finds the flag and leaves `lastIndex` at the end of the comment,
the second call starts there and answers false, and so do two scans of the
same file. -/
theorem same_text_two_answers :
    Source.hasProvideGoogFlag baseText 0 = (true, 19) ∧
    Source.hasProvideGoogFlag baseText 19 = (false, 0) ∧
    Source.createFromFile sampleEsprima sampleFiles 0 "closure/base.js" false =
      (.ok ⟨false, strings ["goog"], strings [], "closure/base.js", .null⟩, 19) ∧
    Source.createFromFile sampleEsprima sampleFiles 19 "closure/base.js" false =
      (.ok ⟨false, strings [], strings [], "closure/base.js", .null⟩, 0) := by
  decide

end Closurebuilder
